import Mathlib

/-!
Shallow embedding of the staged-change patch engine of the
copilot-commit-validator repository, together with proofs that settle the
frozen claims C1..C10 about its specification.

Modelling conventions:
* JavaScript strings are Lean `String`s; all primitive operations that the
  source uses (`includes`, `startsWith`, `trim`, `replace`, `split`, `join`)
  are re-implemented over `List Char` so that every theorem is about
  executable, fully elementary definitions.
* JavaScript `Map`/`Set` state is modelled by association lists whose
  membership relation is the set membership of the original.
* The file system is a function `String → Option String` (path to content);
  `process.exit`, prompts and git effects are modelled as explicit outcome
  values produced by the translated control flow.
* The literal regex catalogue is external configuration in the spec's own
  words; a rule is therefore a record carrying its `message`, `severity` and
  two abstract matcher functions (`test` for `regex.test`, `exec1` for the
  first capture group of `regex.exec`).  Concrete rules used in
  counterexamples get executable matchers implementing the concrete regex.
-/

namespace CCV

/-! ## JavaScript string primitives -/

/-- JS `s.includes(pat)`. -/
def jsIncludes (s pat : String) : Bool := decide (pat.toList <:+: s.toList)

/-- JS `s.startsWith(pat)`. -/
def jsStartsWith (s pat : String) : Bool := pat.toList.isPrefixOf s.toList

/-- JS `s.endsWith(pat)`. -/
def jsEndsWith (s pat : String) : Bool := pat.toList.isSuffixOf s.toList

/-- JS whitespace class (the ASCII part of `\s`, which is all the source ever
meets on diff text). -/
def jsIsSpace (c : Char) : Bool :=
  c = ' ' || c = '\t' || c = '\n' || c = '\r' || c = '\x0b' || c = '\x0c'

/-- JS `s.trim()` on a character list. -/
def jsTrimL (l : List Char) : List Char :=
  ((l.dropWhile jsIsSpace).reverse.dropWhile jsIsSpace).reverse

/-- JS `s.trim()`. -/
def jsTrim (s : String) : String := String.mk (jsTrimL s.toList)

/-- Split a character list on a separator character (JS `s.split(sep)` for a
one-character separator). -/
def splitOnCharL (sep : Char) : List Char → List (List Char)
  | [] => [[]]
  | c :: cs =>
    match splitOnCharL sep cs with
    | [] => [[]]
    | h :: t => if c = sep then [] :: h :: t else (c :: h) :: t

/-- JS `s.split('\n')`. -/
def jsSplitLines (s : String) : List String :=
  (splitOnCharL '\n' s.toList).map String.mk

/-- JS `lines.join('\n')`. -/
def jsJoinLines (lines : List String) : String :=
  String.mk (List.intercalate ['\n'] (lines.map String.toList))

/-- Replace the first occurrence of `pat` in `s` by `rep`
(JS `String.prototype.replace` with a string pattern). -/
def replaceFirstL (pat rep : List Char) : List Char → List Char
  | [] => if pat.isPrefixOf ([] : List Char) then rep ++ ([] : List Char) else []
  | c :: cs =>
    if pat.isPrefixOf (c :: cs) then rep ++ (c :: cs).drop pat.length
    else c :: replaceFirstL pat rep cs

/-- String version of `replaceFirstL`: JS `s.replace(pat, rep)`. -/
def replaceFirst (s pat rep : String) : String :=
  String.mk (replaceFirstL pat.toList rep.toList s.toList)

/-! ## Fix records and in-file fix application (Patch Applier core)

The source's `autoApplyAndRecommit`, `applyAutoFixesNoCommit`,
`applyToNewFiles` and the line-fix branch of `applyAISuggestions` all apply a
file's fix list with the same loop:
`fixes.sort((a,b) => b.line - a.line)` followed by
`modifiedContent = modifiedContent.replace(fix.original, fix.improved)`. -/

/-- A fix record as produced by the analysis/parsing code:
`{filename, line, original, improved}`, plus the optional `type` tag that the
fallback entry and the legacy pass attach (`ftype`). -/
structure Fix where
  filename : String
  line : Int
  original : String
  improved : String
  ftype : Option String := none
  code : Option String := none
deriving DecidableEq, Repr

/-- JS `fixes.sort((a, b) => b.line - a.line)`: stable sort, descending by
line number. -/
def sortFixesDesc (fixes : List Fix) : List Fix :=
  fixes.mergeSort (fun a b => b.line ≤ a.line)

/-- The shared per-file application loop: sort descending, then one
first-occurrence substring replacement per fix. -/
def applyFixesToContent (content : String) (fixes : List Fix) : String :=
  (sortFixesDesc fixes).foldl (fun c f => replaceFirst c f.original f.improved) content

/-! ### First-occurrence replacement: characterisation lemmas -/

theorem replaceFirstL_no_occurrence {pat : List Char} (rep : List Char) :
    ∀ {s : List Char}, ¬ pat <:+: s → replaceFirstL pat rep s = s := by
  intro s
  induction s with
  | nil =>
    intro h
    have hpat : pat ≠ [] := by
      intro hp; exact h (hp ▸ List.infix_rfl)
    simp only [replaceFirstL]
    rw [if_neg]
    intro hpre
    exact hpat (List.prefix_nil.mp (by simpa using hpre))
  | cons c cs ih =>
    intro h
    have hnotpre : ¬ (pat.isPrefixOf (c :: cs) = true) := by
      intro hpre
      exact h ((by simpa using hpre : pat <+: c :: cs).isInfix)
    have hnotin : ¬ pat <:+: cs := fun hin =>
      h (List.infix_cons_iff.mpr (Or.inr hin))
    simp only [replaceFirstL]
    rw [if_neg hnotpre, ih hnotin]

theorem replaceFirstL_spec {pat : List Char} (rep : List Char) :
    ∀ {s : List Char}, pat <:+: s →
      ∃ pre post, s = pre ++ pat ++ post ∧
        replaceFirstL pat rep s = pre ++ rep ++ post ∧
        ∀ pre₂ post₂, s = pre₂ ++ pat ++ post₂ → pre.length ≤ pre₂.length := by
  intro s
  induction s with
  | nil =>
    intro h
    have hpat : pat = [] := List.eq_nil_of_infix_nil h
    subst hpat
    refine ⟨[], [], by simp, ?_, fun _ _ _ => Nat.zero_le _⟩
    simp [replaceFirstL]
  | cons c cs ih =>
    intro h
    by_cases hp : pat.isPrefixOf (c :: cs)
    · have hp' : pat <+: c :: cs := by simpa using hp
      refine ⟨[], (c :: cs).drop pat.length, ?_, ?_, fun _ _ _ => Nat.zero_le _⟩
      · simpa using (List.prefix_iff_eq_append.mp hp').symm
      · simp [replaceFirstL, hp]
    · have hp' : ¬ pat <+: c :: cs := by simpa using hp
      have hin : pat <:+: cs := by
        rcases List.infix_cons_iff.mp h with h1 | h2
        · exact absurd h1 hp'
        · exact h2
      obtain ⟨pre, post, hs, hrw, hmin⟩ := ih hin
      refine ⟨c :: pre, post, by simp [hs], ?_, ?_⟩
      · simp [replaceFirstL, hp, hrw]
      · rintro pre₂ post₂ heq
        cases pre₂ with
        | nil =>
          exfalso
          exact hp' ⟨post₂, by simpa using heq.symm⟩
        | cons d pre₂' =>
          have : cs = pre₂' ++ pat ++ post₂ := by
            simpa using congrArg List.tail heq
          simpa using Nat.succ_le_succ (hmin pre₂' post₂ this)

/-! ## Hunk Mapper (`getCopilotReview`, staged-change extraction loop)

Source (part_006, `getCopilotReview` Step 1): a `lines.forEach` over
`diff.split('\n')` with four branches:
* `diff --git` lines set `currentStagedFile` from `line.match(/b\/(.*)$/)`;
* `@@` lines reset the counter from `/@@\s+-\d+(?:,\d+)?\s+\+(\d+)(?:,\d+)?\s+@@/`
  to `newStart - 1` (0-based);
* `+` lines (not `+++`) increment the counter and record the file/line pair;
* any other line not starting with `-`, `+++`, `---` increments the counter.
-/

/-- Value of a digit run (`parseInt` on a `\d+` capture). -/
def natOfDigits (ds : List Char) : Nat :=
  ds.foldl (fun acc c => 10 * acc + (c.toNat - '0'.toNat)) 0

/-- Skip an optional `,\d+` group (the `(?:,\d+)?` of the hunk regex): the
group participates only when a comma directly followed by a digit is
present. -/
def skipCommaDigits : List Char → List Char
  | ',' :: c :: rest => if c.isDigit then (c :: rest).dropWhile Char.isDigit else ',' :: c :: rest
  | l => l

/-- Match `@@\s+-\d+(?:,\d+)?\s+\+(\d+)(?:,\d+)?\s+@@` at the head of `l`,
returning the captured new-file start. -/
def hunkMatchAt : List Char → Option Nat
  | '@' :: '@' :: r1 =>
    let ws1 := r1.takeWhile jsIsSpace
    if ws1 = [] then none else
    match r1.dropWhile jsIsSpace with
    | '-' :: r3 =>
      let ds1 := r3.takeWhile Char.isDigit
      if ds1 = [] then none else
      let r5 := skipCommaDigits (r3.dropWhile Char.isDigit)
      let ws2 := r5.takeWhile jsIsSpace
      if ws2 = [] then none else
      match r5.dropWhile jsIsSpace with
      | '+' :: r7 =>
        let ds2 := r7.takeWhile Char.isDigit
        if ds2 = [] then none else
        let r9 := skipCommaDigits (r7.dropWhile Char.isDigit)
        let ws3 := r9.takeWhile jsIsSpace
        if ws3 = [] then none else
        match r9.dropWhile jsIsSpace with
        | '@' :: '@' :: _ => some (natOfDigits ds2)
        | _ => none
      | _ => none
    | _ => none
  | _ => none

/-- Unanchored regex search for the hunk header pattern
(JS `line.match(...)` scans every start position, leftmost match wins). -/
def searchHunk : List Char → Option Nat
  | [] => hunkMatchAt []
  | c :: cs =>
    match hunkMatchAt (c :: cs) with
    | some n => some n
    | none => searchHunk cs

/-- Suffix of `s` after the leftmost occurrence of `pat`
(the `(.*)$` capture of `line.match(/b\/(.*)$/)`). -/
def afterFirstL (pat : List Char) : List Char → Option (List Char)
  | [] => if pat.isPrefixOf ([] : List Char) then some [] else none
  | c :: cs =>
    if pat.isPrefixOf (c :: cs) then some ((c :: cs).drop pat.length)
    else afterFirstL pat cs

/-- `currentStagedFile` extraction from a `diff --git` line:
`match(/b\/(.*)$/)` capture, trimmed; empty string when the match fails. -/
def diffFileName (line : String) : String :=
  match afterFirstL "b/".toList line.toList with
  | some r => jsTrim (String.mk r)
  | none => ""

/-- State of the staged-change extraction loop.  `recorded` collects the
`(file, line)` pairs added to the `stagedChanges` map (a JS `Map` of `Set`s;
list membership is the set membership of the original). -/
structure HMState where
  file : String
  counter : Int
  recorded : List (String × Int)
deriving DecidableEq, Repr

/-- One iteration of the source loop (translated branch for branch). -/
def stagedStep (s : HMState) (line : String) : HMState :=
  if jsStartsWith line "diff --git" then
    { s with file := diffFileName line }
  else if jsStartsWith line "@@" then
    match searchHunk line.toList with
    | some n => { s with counter := (n : Int) - 1 }
    | none => s
  else if jsStartsWith line "+" && !jsStartsWith line "+++" then
    if s.file ≠ "" then
      { s with counter := s.counter + 1, recorded := s.recorded ++ [(s.file, s.counter + 1)] }
    else { s with counter := s.counter + 1 }
  else if !jsStartsWith line "-" && !jsStartsWith line "+++" && !jsStartsWith line "---" then
    { s with counter := s.counter + 1 }
  else s

/-- The loop, from the source's initial state (`currentStagedFile = ''`,
`currentLineNumber = 0`). -/
def runStagedChanges (lines : List String) : HMState :=
  lines.foldl stagedStep ⟨"", 0, []⟩

/-- The staged-change map of a diff text, as the list of recorded pairs. -/
def stagedChanges (diff : String) : List (String × Int) :=
  (runStagedChanges (jsSplitLines diff)).recorded

/-- The set of staged line numbers of one file (`stagedChanges.get(file)`). -/
def stagedLinesOf (diff : String) (file : String) : List Int :=
  ((stagedChanges diff).filter (fun p => p.1 = file)).map (fun p => p.2)

/-! ### Reference model written from the spec's words (§4.1)

"a line beginning a new file block resets the 'current file' and 'current
line counter' [best-effort counter starts at 1]; a hunk header `@@ -a,b +c,d @@`
resets the line counter to `c`; each subsequent addition line is recorded for
the current file and increments the counter; each context line also
increments the counter; removal-only lines do not increment". -/

/-- One step of the spec-side Hunk Mapper. -/
def specHunkStep (s : HMState) (line : String) : HMState :=
  if jsStartsWith line "diff --git" then
    { s with file := diffFileName line, counter := 1 }
  else if jsStartsWith line "@@" then
    match searchHunk line.toList with
    | some n => { s with counter := (n : Int) }
    | none => s
  else if jsStartsWith line "+" && !jsStartsWith line "+++" then
    if s.file ≠ "" then
      { s with counter := s.counter + 1, recorded := s.recorded ++ [(s.file, s.counter)] }
    else { s with counter := s.counter + 1 }
  else if !jsStartsWith line "-" && !jsStartsWith line "+++" && !jsStartsWith line "---" then
    { s with counter := s.counter + 1 }
  else s

/-- The spec-side run: counter starts at 1 (first line of the new file). -/
def runSpecHunkMapper (lines : List String) : HMState :=
  lines.foldl specHunkStep ⟨"", 1, []⟩

/-- Well-formedness of a diff text: every addition line occurs inside a hunk,
i.e. after a parseable `@@` header that follows the last file header.  This
is exactly the shape `git diff --cached` emits. -/
def wfDiffAux : Bool → List String → Bool
  | _, [] => true
  | inHunk, l :: ls =>
    if jsStartsWith l "diff --git" then wfDiffAux false ls
    else if jsStartsWith l "@@" then
      match searchHunk l.toList with
      | some _ => wfDiffAux true ls
      | none => wfDiffAux inHunk ls
    else if jsStartsWith l "+" && !jsStartsWith l "+++" then inHunk && wfDiffAux inHunk ls
    else wfDiffAux inHunk ls

/-- Well-formedness of a complete diff line list. -/
def wfDiff (lines : List String) : Bool := wfDiffAux false lines

/-! ### Line-class helpers and step lemmas -/

/-- An addition line of a unified diff (`+` but not the `+++` marker). -/
def isAdditionLine (l : String) : Bool :=
  jsStartsWith l "+" && !jsStartsWith l "+++"

/-- A context line as classified by the source loop: none of the four
special prefixes. -/
def isContextLine (l : String) : Bool :=
  !jsStartsWith l "diff --git" && !jsStartsWith l "@@" &&
  !jsStartsWith l "+" && !jsStartsWith l "-"

theorem head_of_jsStartsWith {l p : String} {c : Char} {ps : List Char}
    (hp : p.toList = c :: ps) (h : jsStartsWith l p = true) :
    ∃ t, l.toList = c :: t := by
  have hpre : p.toList <+: l.toList := by simpa [jsStartsWith] using h
  rw [hp] at hpre
  obtain ⟨t, ht⟩ := hpre
  exact ⟨ps ++ t, by simpa using ht.symm⟩

theorem jsStartsWith_ne_of_head {l p q : String} {c d : Char}
    {ps qs : List Char} (hp : p.toList = c :: ps) (hq : q.toList = d :: qs)
    (hcd : c ≠ d) (h : jsStartsWith l p = true) :
    jsStartsWith l q = false := by
  obtain ⟨t, ht⟩ := head_of_jsStartsWith hp h
  by_contra hqq
  have hqt : jsStartsWith l q = true := by
    cases hxx : jsStartsWith l q with
    | false => exact absurd hxx hqq
    | true => rfl
  obtain ⟨t', ht'⟩ := head_of_jsStartsWith hq hqt
  rw [ht] at ht'
  exact hcd (by injection ht')

theorem jsStartsWith_mono {l p q : String} (hpq : p.toList <+: q.toList)
    (h : jsStartsWith l q = true) : jsStartsWith l p = true := by
  have : q.toList <+: l.toList := by simpa [jsStartsWith] using h
  simpa [jsStartsWith] using hpq.trans this

/-- A parseable hunk header resets the counter to `newStart - 1` (so that the
next addition line, which pre-increments, is recorded as `newStart`). -/
theorem stagedStep_hunk (s : HMState) (line : String) (n : Nat)
    (h : jsStartsWith line "@@" = true)
    (hm : searchHunk line.toList = some n) :
    stagedStep s line = { s with counter := (n : Int) - 1 } := by
  have h1 : jsStartsWith line "diff --git" = false :=
    jsStartsWith_ne_of_head (p := "@@") (q := "diff --git") rfl rfl (by decide) h
  have hm' : searchHunk line.data = some n := hm
  simp [stagedStep, h1, h, hm']

/-- An addition line increments the counter and records the current file at
the incremented value. -/
theorem stagedStep_addition (s : HMState) (line : String)
    (h : isAdditionLine line = true) (hf : s.file ≠ "") :
    stagedStep s line =
      { s with counter := s.counter + 1,
               recorded := s.recorded ++ [(s.file, s.counter + 1)] } := by
  have hplus : jsStartsWith line "+" = true := by
    have := h; simp [isAdditionLine] at this; exact this.1
  have h1 : jsStartsWith line "diff --git" = false :=
    jsStartsWith_ne_of_head (p := "+") (q := "diff --git") rfl rfl (by decide) hplus
  have h2 : jsStartsWith line "@@" = false :=
    jsStartsWith_ne_of_head (p := "+") (q := "@@") rfl rfl (by decide) hplus
  have h3 : isAdditionLine line = true := h
  simp only [isAdditionLine] at h3
  simp [stagedStep, h1, h2, h3, hf]

/-- A context line increments the counter and records nothing. -/
theorem stagedStep_context (s : HMState) (line : String)
    (h : isContextLine line = true) :
    stagedStep s line = { s with counter := s.counter + 1 } := by
  simp only [isContextLine, Bool.and_eq_true, Bool.not_eq_true'] at h
  obtain ⟨⟨⟨h1, h2⟩, h3⟩, h4⟩ := h
  have h5 : jsStartsWith line "+++" = false := by
    cases hx : jsStartsWith line "+++" with
    | false => rfl
    | true => rw [jsStartsWith_mono (p := "+") (q := "+++") (by decide) hx] at h3; cases h3
  have h6 : jsStartsWith line "---" = false := by
    cases hx : jsStartsWith line "---" with
    | false => rfl
    | true => rw [jsStartsWith_mono (p := "-") (q := "---") (by decide) hx] at h4; cases h4
  simp [stagedStep, h1, h2, h3, h4, h5, h6]

/-- A removal line (anything starting with `-`, including the `---` marker)
leaves the whole state unchanged. -/
theorem stagedStep_removal (s : HMState) (line : String)
    (h : jsStartsWith line "-" = true) :
    stagedStep s line = s := by
  have h1 : jsStartsWith line "diff --git" = false :=
    jsStartsWith_ne_of_head (p := "-") (q := "diff --git") rfl rfl (by decide) h
  have h2 : jsStartsWith line "@@" = false :=
    jsStartsWith_ne_of_head (p := "-") (q := "@@") rfl rfl (by decide) h
  have h3 : jsStartsWith line "+" = false :=
    jsStartsWith_ne_of_head (p := "-") (q := "+") rfl rfl (by decide) h
  simp [stagedStep, h1, h2, h3, h]

/-- Only addition lines ever extend the recorded staged set. -/
theorem stagedStep_recorded_of_not_addition (s : HMState) (line : String)
    (h : isAdditionLine line = false) :
    (stagedStep s line).recorded = s.recorded := by
  simp only [isAdditionLine, Bool.and_eq_false_iff, Bool.not_eq_false'] at h
  by_cases h1 : jsStartsWith line "diff --git"
  · simp [stagedStep, h1]
  · by_cases h2 : jsStartsWith line "@@"
    · simp only [stagedStep, h1, h2]
      simp only [Bool.false_eq_true, if_false, if_true]
      cases searchHunk line.toList <;> simp
    · rcases h with h3 | h3
      · by_cases h4 : !jsStartsWith line "-" && !jsStartsWith line "+++" &&
            !jsStartsWith line "---"
        · simp [stagedStep, h1, h2, h3, h4]
        · simp [stagedStep, h1, h2, h3, h4]
      · simp [stagedStep, h1, h2, h3]

/-- Lock-step refinement: on well-formed diffs the source loop (0-based
counter, pre-increment) records exactly the pairs of the spec-side mapper
(1-based counter, post-increment). -/
theorem staged_spec_recorded_eq :
    ∀ (lines : List String) (sc ss : HMState) (inHunk : Bool),
      sc.file = ss.file → sc.recorded = ss.recorded →
      (inHunk = true → ss.counter = sc.counter + 1) →
      wfDiffAux inHunk lines = true →
      (lines.foldl stagedStep sc).recorded = (lines.foldl specHunkStep ss).recorded := by
  intro lines
  induction lines with
  | nil =>
    intro sc ss inHunk hf hr _ _
    simpa using hr
  | cons l ls ih =>
    intro sc ss inHunk hf hr hc hwf
    simp only [List.foldl_cons]
    by_cases h1 : jsStartsWith l "diff --git"
    · have hwf' : wfDiffAux false ls = true := by
        simpa [wfDiffAux, h1] using hwf
      refine ih _ _ false ?_ ?_ (fun hff => by cases hff) hwf'
      · simp [stagedStep, specHunkStep, h1]
      · simp [stagedStep, specHunkStep, h1, hr]
    · by_cases h2 : jsStartsWith l "@@"
      · cases hm : searchHunk l.toList with
        | none =>
          have hm' : searchHunk l.data = none := hm
          have hwf' : wfDiffAux inHunk ls = true := by
            simpa [wfDiffAux, h1, h2, hm'] using hwf
          refine ih _ _ inHunk ?_ ?_ ?_ hwf'
          · simp [stagedStep, specHunkStep, h1, h2, hm, hm', hf]
          · simp [stagedStep, specHunkStep, h1, h2, hm, hm', hr]
          · intro hih
            simp only [stagedStep, specHunkStep, h1, h2, hm, hm']
            simp only [Bool.false_eq_true, if_false, if_true]
            exact hc hih
        | some n =>
          have hm' : searchHunk l.data = some n := hm
          have hwf' : wfDiffAux true ls = true := by
            simpa [wfDiffAux, h1, h2, hm'] using hwf
          refine ih _ _ true ?_ ?_ ?_ hwf'
          · simp [stagedStep, specHunkStep, h1, h2, hm, hm', hf]
          · simp [stagedStep, specHunkStep, h1, h2, hm, hm', hr]
          · intro _
            simp only [stagedStep, specHunkStep, h1, h2, hm, hm']
            simp only [Bool.false_eq_true, if_false, if_true]
            omega
      · by_cases h3 : jsStartsWith l "+" && !jsStartsWith l "+++"
        · have hwf0 : (inHunk && wfDiffAux inHunk ls) = true := by
            simpa [wfDiffAux, h1, h2, h3] using hwf
          obtain ⟨hih, hwf'⟩ := by simpa using hwf0
          have hcnt : ss.counter = sc.counter + 1 := hc hih
          by_cases hfe : sc.file = ""
          · have hfe' : ss.file = "" := hf ▸ hfe
            refine ih _ _ inHunk ?_ ?_ ?_ hwf'
            · simp [stagedStep, specHunkStep, h1, h2, h3, hfe, hfe', hf]
            · simp [stagedStep, specHunkStep, h1, h2, h3, hfe, hfe', hr]
            · intro _
              simp [stagedStep, specHunkStep, h1, h2, h3, hfe, hfe', hcnt]
          · have hfe' : ¬ ss.file = "" := hf ▸ hfe
            refine ih _ _ inHunk ?_ ?_ ?_ hwf'
            · simp [stagedStep, specHunkStep, h1, h2, h3, hfe, hfe', hf]
            · simp [stagedStep, specHunkStep, h1, h2, h3, hfe, hfe', hr, hf, hcnt]
            · intro _
              simp [stagedStep, specHunkStep, h1, h2, h3, hfe, hfe', hcnt]
        · have hwf' : wfDiffAux inHunk ls = true := by
            simpa [wfDiffAux, h1, h2, h3] using hwf
          by_cases h4 : !jsStartsWith l "-" && !jsStartsWith l "+++" && !jsStartsWith l "---"
          · refine ih _ _ inHunk ?_ ?_ ?_ hwf'
            · simp [stagedStep, specHunkStep, h1, h2, h3, h4, hf]
            · simp [stagedStep, specHunkStep, h1, h2, h3, h4, hr]
            · intro hih
              simp [stagedStep, specHunkStep, h1, h2, h3, h4, hc hih]
          · refine ih _ _ inHunk ?_ ?_ ?_ hwf'
            · simp [stagedStep, specHunkStep, h1, h2, h3, h4, hf]
            · simp [stagedStep, specHunkStep, h1, h2, h3, h4, hr]
            · intro hih
              simp [stagedStep, specHunkStep, h1, h2, h3, h4, hc hih]

/-- A demonstration diff for the Hunk Mapper witness. -/
def demoDiffC2 : List String :=
  jsSplitLines "diff --git a/f.js b/f.js\n@@ -1,2 +10,3 @@\n ctx\n+a\n-b\n+c"

/-- C2: the staged-change map built by `getCopilotReview` maps each file to
exactly the new-file line numbers of its addition lines.  Conjuncts:
(1) a parseable `@@ -a,b +c,d @@` header resets the running counter to `c - 1`
    (0-based), (2) an addition line advances the counter and records the
    current file at the advanced value, (3) hence the next addition line
    after a header is recorded with number `c`, (4) a context line advances
    the counter without recording, (5) a removal line (including the `---`
    marker) changes nothing, (6) non-addition lines never extend the
    recorded set, and (7) on every well-formed diff (all addition lines
    inside parseable hunks — the shape `git diff --cached` emits) the loop's
    recorded pairs coincide with those of the spec-side reference mapper
    `runSpecHunkMapper`, so no recorded number comes from a removal line, a
    pure-context line, or a line outside a hunk. -/
theorem C2_hunk_mapper_correct :
    (∀ (s : HMState) (line : String) (n : Nat),
        jsStartsWith line "@@" = true → searchHunk line.toList = some n →
        stagedStep s line = { s with counter := (n : Int) - 1 })
    ∧ (∀ (s : HMState) (line : String),
        isAdditionLine line = true → s.file ≠ "" →
        stagedStep s line =
          { s with counter := s.counter + 1,
                   recorded := s.recorded ++ [(s.file, s.counter + 1)] })
    ∧ (∀ (s : HMState) (hl al : String) (n : Nat),
        jsStartsWith hl "@@" = true → searchHunk hl.toList = some n →
        isAdditionLine al = true → s.file ≠ "" →
        (stagedStep (stagedStep s hl) al).recorded =
          s.recorded ++ [(s.file, (n : Int))])
    ∧ (∀ (s : HMState) (line : String),
        isContextLine line = true →
        stagedStep s line = { s with counter := s.counter + 1 })
    ∧ (∀ (s : HMState) (line : String),
        jsStartsWith line "-" = true → stagedStep s line = s)
    ∧ (∀ (s : HMState) (line : String),
        isAdditionLine line = false → (stagedStep s line).recorded = s.recorded)
    ∧ (∀ lines : List String, wfDiff lines = true →
        (runStagedChanges lines).recorded = (runSpecHunkMapper lines).recorded) := by
  refine ⟨stagedStep_hunk, stagedStep_addition, ?_, stagedStep_context,
    stagedStep_removal, stagedStep_recorded_of_not_addition, ?_⟩
  · intro s hl al n hh hm ha hf
    rw [stagedStep_hunk s hl n hh hm,
      stagedStep_addition ⟨s.file, (n : Int) - 1, s.recorded⟩ al ha hf]
    have harith : (n : Int) - 1 + 1 = (n : Int) := by omega
    simp [harith]
  · intro lines hwf
    exact staged_spec_recorded_eq lines ⟨"", 0, []⟩ ⟨"", 1, []⟩ false rfl rfl
      (fun h => by cases h) hwf

/-- Witness for C2 at a concrete diff with a hunk header, a context line, an
addition, a removal, and a second addition. -/
theorem C2_hunk_mapper_correct_witness :
    (runStagedChanges demoDiffC2).recorded = (runSpecHunkMapper demoDiffC2).recorded ∧
    stagedStep ⟨"f.js", 9, []⟩ "+a" = ⟨"f.js", 10, [("f.js", 10)]⟩ := by
  refine ⟨C2_hunk_mapper_correct.2.2.2.2.2.2 demoDiffC2 (by decide), ?_⟩
  rw [C2_hunk_mapper_correct.2.1 ⟨"f.js", 9, []⟩ "+a" (by decide) (by decide)]
  decide

/-! ### C4: fix-application discipline -/

/-- C4: when a file's fix list is applied (`autoApplyAndRecommit`,
`applyAISuggestions`, `applyAutoFixesNoCommit` all run
`fixes.sort((a,b) => b.line - a.line)` then one
`content.replace(original, improved)` per fix), the applied order is
descending by line number over exactly the given fixes, and each step
performs a single first-occurrence substring replacement: it leaves the
content unchanged when the original text does not occur, and otherwise
rewrites precisely the earliest occurrence, leaving the prefix before it and
the suffix after it untouched. -/
theorem C4_fix_application (fixes : List Fix) :
    List.Pairwise (fun a b : Fix => b.line ≤ a.line) (sortFixesDesc fixes)
    ∧ (sortFixesDesc fixes).Perm fixes
    ∧ (∀ s pat rep : String, ¬ pat.toList <:+: s.toList →
        replaceFirst s pat rep = s)
    ∧ (∀ s pat rep : String, pat.toList <:+: s.toList →
        ∃ pre post, s.toList = pre ++ pat.toList ++ post ∧
          (replaceFirst s pat rep).toList = pre ++ rep.toList ++ post ∧
          ∀ pre₂ post₂, s.toList = pre₂ ++ pat.toList ++ post₂ →
            pre.length ≤ pre₂.length) := by
  refine ⟨?_, List.mergeSort_perm fixes _, ?_, ?_⟩
  · have h := @List.sorted_mergeSort Fix (fun a b : Fix => decide (b.line ≤ a.line))
      (fun a b c hab hbc => by
        simp only [decide_eq_true_eq] at *
        omega)
      (fun a b => by
        simp only [Bool.or_eq_true, decide_eq_true_eq]
        omega)
      fixes
    exact h.imp (fun hab => by simpa using hab)
  · intro s pat rep h
    have := @replaceFirstL_no_occurrence pat.toList rep.toList s.toList h
    simp only [replaceFirst, this]
    cases s
    rfl
  · intro s pat rep h
    exact replaceFirstL_spec rep.toList h

/-- Witness for C4: a no-occurrence replacement and a first-occurrence
replacement at concrete strings. -/
theorem C4_fix_application_witness :
    replaceFirst "abc" "xy" "z" = "abc" ∧
    (∃ pre post, "xbxb".toList = pre ++ "b".toList ++ post ∧
        (replaceFirst "xbxb" "b" "Y").toList = pre ++ "Y".toList ++ post ∧
        ∀ pre₂ post₂, "xbxb".toList = pre₂ ++ "b".toList ++ post₂ →
          pre.length ≤ pre₂.length) :=
  ⟨(C4_fix_application []).2.2.1 "abc" "xy" "z" (by decide),
   (C4_fix_application []).2.2.2 "xbxb" "b" "Y" (by decide)⟩

/-! ## Patch Applier with backup (`applyAISuggestions`)

The per-file body of `applyAISuggestions`: read the file, write a sibling
`.ai-backup` with the pre-write content, apply the fixes, write the result;
on the user's rejection, read the backup back, rewrite the file from it and
unlink the backup.  The file system is a map from (resolved) path to
content. -/

/-- File system: path to content. -/
def FSMap : Type := String → Option String

/-- `fs.writeFile(p, c)`. -/
def fsWrite (fs : FSMap) (p c : String) : FSMap :=
  fun q => if q = p then some c else fs q

/-- `fs.unlink(p)`. -/
def fsRemove (fs : FSMap) (p : String) : FSMap :=
  fun q => if q = p then none else fs q

/-- `filePath + '.ai-backup'`. -/
def aiBackupPath (f : String) : String := f ++ ".ai-backup"

/-- Content modification of `applyAISuggestions`: a full-file fix (a parsed
old-format `{filename, code}` record) replaces the whole content; otherwise
the fixes with truthy `original`/`improved` are sorted descending by line
and applied by first-occurrence replacement. -/
def applySuggestedToContent (content : String) (fixes : List Fix) : String :=
  match fixes.find? (fun f => f.code.isSome) with
  | some f => f.code.getD content
  | none =>
    ((fixes.filter (fun f => f.original ≠ "" && f.improved ≠ "")).mergeSort
        (fun a b => decide (b.line ≤ a.line))).foldl
      (fun c f => replaceFirst c f.original f.improved) content

/-- Per-file apply phase of `applyAISuggestions`: skip a missing file;
otherwise back the content up, modify, write, and return the
`{filename, backupPath}` record pushed onto `appliedFiles`. -/
def applyAISuggestionsFile (fs : FSMap) (filename : String) (fixes : List Fix) :
    FSMap × Option (String × String) :=
  match fs filename with
  | none => (fs, none)
  | some originalContent =>
    let backupPath := aiBackupPath filename
    let fs1 := fsWrite fs backupPath originalContent
    let modified := applySuggestedToContent originalContent fixes
    (fsWrite fs1 filename modified, some (filename, backupPath))

/-- Per-file restore branch (`confirmCommit === false`): read the backup,
rewrite the file from it, unlink the backup. -/
def restoreFromBackup (fs : FSMap) (rec : String × String) : FSMap :=
  match fs rec.2 with
  | some backupContent => fsRemove (fsWrite fs rec.1 backupContent) rec.2
  | none => fs

theorem self_ne_aiBackupPath (f : String) : f ≠ aiBackupPath f := by
  intro h
  have hlen := congrArg String.length h
  rw [aiBackupPath, String.length_append] at hlen
  have : ".ai-backup".length = 10 := rfl
  omega

/-- C3: `applyAISuggestions` first writes a backup holding the exact
pre-write content, then the modified file; rejecting restores the file
byte-for-byte from the backup and removes the backup, so the file ends
byte-identical to its pre-session state (and no other path is disturbed
except the removed backup). -/
theorem C3_backup_restore_roundtrip (fs : FSMap) (filename : String)
    (fixes : List Fix) (orig : String) (hread : fs filename = some orig) :
    (applyAISuggestionsFile fs filename fixes).2 =
        some (filename, aiBackupPath filename)
    ∧ (applyAISuggestionsFile fs filename fixes).1 (aiBackupPath filename) =
        some orig
    ∧ (applyAISuggestionsFile fs filename fixes).1 filename =
        some (applySuggestedToContent orig fixes)
    ∧ restoreFromBackup (applyAISuggestionsFile fs filename fixes).1
        (filename, aiBackupPath filename) filename = some orig
    ∧ restoreFromBackup (applyAISuggestionsFile fs filename fixes).1
        (filename, aiBackupPath filename) (aiBackupPath filename) = none
    ∧ ∀ p, p ≠ aiBackupPath filename →
        restoreFromBackup (applyAISuggestionsFile fs filename fixes).1
          (filename, aiBackupPath filename) p = fs p := by
  have hne := self_ne_aiBackupPath filename
  have happly : applyAISuggestionsFile fs filename fixes =
      (fsWrite (fsWrite fs (aiBackupPath filename) orig) filename
        (applySuggestedToContent orig fixes),
       some (filename, aiBackupPath filename)) := by
    simp [applyAISuggestionsFile, hread]
  rw [happly]
  have hbk : (fsWrite (fsWrite fs (aiBackupPath filename) orig) filename
      (applySuggestedToContent orig fixes)) (aiBackupPath filename) = some orig := by
    simp [fsWrite, (Ne.symm hne)]
  refine ⟨rfl, hbk, by simp [fsWrite], ?_, ?_, ?_⟩
  · simp only [restoreFromBackup, hbk]
    simp [fsRemove, fsWrite, hne]
  · simp only [restoreFromBackup, hbk]
    simp [fsRemove]
  · intro p hp
    simp only [restoreFromBackup, hbk]
    by_cases hpf : p = filename
    · subst hpf
      simp [fsRemove, fsWrite, hp, hread]
    · simp [fsRemove, fsWrite, hp, hpf]

/-- Witness for C3 at a one-file file system. -/
theorem C3_backup_restore_roundtrip_witness :
    restoreFromBackup
        (applyAISuggestionsFile
          (fun p => if p = "a.js" then some "let x = 1;" else none) "a.js"
          [⟨"a.js", 1, "let x = 1;", "const x = 1;", none, none⟩]).1
        ("a.js", aiBackupPath "a.js") "a.js" = some "let x = 1;" :=
  (C3_backup_restore_roundtrip
    (fun p => if p = "a.js" then some "let x = 1;" else none) "a.js"
    [⟨"a.js", 1, "let x = 1;", "const x = 1;", none, none⟩]
    "let x = 1;" rfl).2.2.2.1

/-! ## Confirmation Controller (`validateCommit` timeout branch,
`interactiveReviewAndApply` non-interactive branch)

`DEFAULT_ON_CANCEL = (process.env.AI_DEFAULT_ON_CANCEL || 'cancel').toLowerCase()`.
On a timed-out/cancelled enhanced prompt, `validateCommit` picks a menu
choice from the policy and dispatches on it; `interactiveReviewAndApply`
resolves a non-interactive per-file confirmation directly from the policy. -/

/-- JS `s.toLowerCase()` (ASCII). -/
def jsToLower (s : String) : String := String.mk (s.toList.map Char.toLower)

/-- `DEFAULT_ON_CANCEL` from the environment value. -/
def defaultOnCancel (env : Option String) : String := jsToLower (env.getD "cancel")

/-- The enhanced-workflow menu strings. -/
def autoApplyChoice : String := "🚀 Auto-apply Copilot suggestions and recommit"

def keepLocalChoice : String := "📝 Keep local changes and apply suggestions manually"

def reviewOnlyChoice : String := "🔧 Review suggestions only (no changes)"

def skipAsIsChoice : String := "⚡ Skip validation and commit as-is"

/-- Menu choice selected when the enhanced prompt times out or is cancelled
(`if (cancelled) { ... }` in `validateCommit`). -/
def enhancedTimeoutDecision (policy : String) : String :=
  if policy = "auto-apply" then autoApplyChoice
  else if policy = "skip" then skipAsIsChoice
  else reviewOnlyChoice

/-- Outcome of the enhanced-workflow dispatch. -/
inductive EnhancedOutcome where
  | runAutoApply (fixes : List Fix)
  | runApplyToNewFiles (fixes : List Fix)
  | exitWith (code : Nat)
deriving DecidableEq, Repr

/-- `fixes.map(f => ({...f, filename: f.filename || single || 'index.js'}))`
where `single` is the only staged file if there is exactly one. -/
def resolveFilenames (fixes : List Fix) (stagedFiles : List String) : List Fix :=
  fixes.map (fun f =>
    if f.filename ≠ "" then f
    else { f with filename := match stagedFiles with
                              | [s] => if s = "" then "index.js" else s
                              | _ => "index.js" })

/-- The `if/else if` chain on `enhancedDecision` in `validateCommit`:
auto-apply runs `autoApplyAndRecommit` unless the fix list is empty or a
fallback placeholder (then exit 1); keep-local runs `applyToNewFiles`;
review-only exits 1; skip-as-is exits 0; cancel exits 1. -/
def enhancedDispatch (decision : String) (effectiveFixes : List Fix)
    (stagedFiles : List String) : EnhancedOutcome :=
  if decision = autoApplyChoice then
    let fixes := resolveFilenames effectiveFixes stagedFiles
    if fixes.length = 0 ||
        (match fixes.head? with
         | some f => f.ftype = some "fallback"
         | none => false) then .exitWith 1
    else .runAutoApply fixes
  else if decision = keepLocalChoice then
    .runApplyToNewFiles (resolveFilenames effectiveFixes stagedFiles)
  else if decision = reviewOnlyChoice then .exitWith 1
  else if decision = skipAsIsChoice then .exitWith 0
  else .exitWith 1

/-- Non-interactive resolution of `interactiveReviewAndApply` (no TTY, no
forced prompt): accept exactly under the `auto-apply` policy. -/
def reviewNonInteractiveDefault (policy : String) : Bool :=
  if policy = "auto-apply" then true
  else if policy = "skip" then false
  else false

/-! ### C5 -/

/-- C5: on a timed-out/cancelled confirmation the configured
`AI_DEFAULT_ON_CANCEL` policy decides every pending fix: `auto-apply`
accepts (per-file review resolves true and `autoApplyAndRecommit` runs on
the fixes), `skip` rejects but still allows the commit (exit 0, nothing
written), and any other value — in particular the default `cancel` — rejects
and aborts with a non-zero exit, blocking the commit. -/
theorem C5_default_on_cancel (fixes : List Fix) (staged : List String) :
    (fixes ≠ [] →
      (∀ f, fixes.head? = some f → f.ftype ≠ some "fallback") →
      enhancedDispatch (enhancedTimeoutDecision "auto-apply") fixes staged =
        .runAutoApply (resolveFilenames fixes staged))
    ∧ enhancedDispatch (enhancedTimeoutDecision "skip") fixes staged = .exitWith 0
    ∧ (∀ p : String, p ≠ "auto-apply" → p ≠ "skip" →
        enhancedDispatch (enhancedTimeoutDecision p) fixes staged = .exitWith 1)
    ∧ defaultOnCancel none = "cancel"
    ∧ reviewNonInteractiveDefault "auto-apply" = true
    ∧ reviewNonInteractiveDefault "skip" = false
    ∧ reviewNonInteractiveDefault "cancel" = false := by
  refine ⟨?_, ?_, ?_, by decide, rfl, rfl, rfl⟩
  · intro hne hfb
    have hlen : (resolveFilenames fixes staged).length ≠ 0 := by
      simpa [resolveFilenames] using fun h => hne (List.eq_nil_of_length_eq_zero h)
    have hhead : ∀ f, (resolveFilenames fixes staged).head? = some f →
        f.ftype ≠ some "fallback" := by
      intro f hf
      cases fixes with
      | nil => simp [resolveFilenames] at hf
      | cons g gs =>
        simp only [resolveFilenames, List.map_cons, List.head?_cons,
          Option.some_inj] at hf
        have hg := hfb g (by simp)
        subst hf
        by_cases hgf : g.filename ≠ "" <;> simp [hgf, hg]
    simp only [enhancedTimeoutDecision, if_pos rfl]
    simp only [enhancedDispatch, if_pos rfl]
    rcases hh : (resolveFilenames fixes staged).head? with _ | f
    · rw [List.head?_eq_none_iff] at hh
      exact absurd (congrArg List.length hh) (by simpa using hlen)
    · simp [hlen, hh, hhead f hh]
  · have h1 : skipAsIsChoice ≠ autoApplyChoice := by decide
    have h2 : skipAsIsChoice ≠ keepLocalChoice := by decide
    have h3 : skipAsIsChoice ≠ reviewOnlyChoice := by decide
    simp [enhancedTimeoutDecision, enhancedDispatch, h1, h2, h3]
  · intro p hp1 hp2
    have h1 : reviewOnlyChoice ≠ autoApplyChoice := by decide
    have h2 : reviewOnlyChoice ≠ keepLocalChoice := by decide
    simp [enhancedTimeoutDecision, enhancedDispatch, hp1, hp2, h1, h2]

/-- Witness for C5 with one concrete fix and the policy values of the
spec's scenarios. -/
theorem C5_default_on_cancel_witness :
    enhancedDispatch (enhancedTimeoutDecision "auto-apply")
        [⟨"a.js", 1, "x", "y", none, none⟩] [] =
      .runAutoApply (resolveFilenames [⟨"a.js", 1, "x", "y", none, none⟩] [])
    ∧ enhancedDispatch (enhancedTimeoutDecision "skip")
        [⟨"a.js", 1, "x", "y", none, none⟩] [] = .exitWith 0
    ∧ enhancedDispatch (enhancedTimeoutDecision "cancel")
        [⟨"a.js", 1, "x", "y", none, none⟩] [] = .exitWith 1 := by
  refine ⟨(C5_default_on_cancel _ []).1 (by decide) ?_,
    (C5_default_on_cancel _ []).2.1,
    (C5_default_on_cancel _ []).2.2.1 "cancel" (by decide) (by decide)⟩
  intro f hf
  simp only [List.head?_cons, Option.some_inj] at hf
  subst hf
  decide

/-! ## Recommit Orchestrator (`autoApplyAndRecommit`, commit phase)

`branchName.match(/([A-Z]+-\d+)/)` gives the ticket id (fallback
`'SHOP-0000'`); the commit message is
`` `${ticketId}-apply-copilot-improvements-${fixCount}-files` ``; every
applied file is re-staged with `git.add` and the commit runs with
`['--no-verify']`; a failed commit logs and exits 1 without restoring
anything. -/

/-- Match `[A-Z]+-\d+` at the head of `l` (greedy runs; backtracking a run
never helps because a shortened run is still followed by a run
character). -/
def tryTicketAt (l : List Char) : Option String :=
  let ur := l.takeWhile Char.isUpper
  if ur = [] then none
  else
    let rest := l.dropWhile Char.isUpper
    if rest.take 1 = ['-'] then
      let dr := (rest.drop 1).takeWhile Char.isDigit
      if dr = [] then none else some (String.mk (ur ++ '-' :: dr))
    else none

/-- Leftmost match of `[A-Z]+-\d+` (unanchored `match`). -/
def findTicketL : List Char → Option String
  | [] => none
  | c :: cs =>
    match tryTicketAt (c :: cs) with
    | some t => some t
    | none => findTicketL cs

/-- Ticket token of a branch name. -/
def findTicket (branch : String) : Option String := findTicketL branch.toList

/-- The synthesized commit message. -/
def commitMessageFor (branch : String) (fixCount : Nat) : String :=
  ((findTicket branch).getD "SHOP-0000") ++ "-apply-copilot-improvements-" ++
    toString fixCount ++ "-files"

/-- Observable effects of the commit phase of `autoApplyAndRecommit`. -/
structure RecommitTrace where
  staged : List String
  message : String
  noVerify : Bool
  exitCode : Nat
  backupsRemoved : Bool
  filesRestored : Bool
deriving DecidableEq, Repr

/-- Commit phase of `autoApplyAndRecommit` once `appliedFiles` is non-empty
and the recommit is confirmed: re-stage every applied `{filename,
backupPath}` record, commit with the synthesized message and `--no-verify`;
on success remove the backups and exit 0; on failure report, keep all files
modified and staged, and exit 1. -/
def autoRecommitFinish (appliedFiles : List (String × String)) (branch : String)
    (commitOk : Bool) : RecommitTrace :=
  let msg := commitMessageFor branch appliedFiles.length
  if commitOk then
    ⟨appliedFiles.map Prod.fst, msg, true, 0, true, false⟩
  else
    ⟨appliedFiles.map Prod.fst, msg, true, 1, false, false⟩

theorem takeWhile_append_cons {p : Char → Bool} :
    ∀ {xs : List Char}, (∀ x ∈ xs, p x = true) → ∀ {y : Char}, p y = false →
      ∀ (ys : List Char),
        (xs ++ y :: ys).takeWhile p = xs ∧ (xs ++ y :: ys).dropWhile p = y :: ys := by
  intro xs
  induction xs with
  | nil =>
    intro _ y hy ys
    simp [List.takeWhile, List.dropWhile, hy]
  | cons x xs ih =>
    intro hxs y hy ys
    have hx : p x = true := hxs x (by simp)
    have hrest := ih (fun a ha => hxs a (by simp [ha])) hy ys
    simp [List.takeWhile, List.dropWhile, hx, hrest.1, hrest.2]

/-- Soundness: a found ticket has the shape `[A-Z]+-\d+` and is a substring
of the scanned text. -/
theorem take_one_eq_cons {xs : List Char} {c : Char}
    (h : xs.take 1 = [c]) : xs = c :: xs.drop 1 := by
  cases xs with
  | nil => cases h
  | cons a t =>
    have : a = c := by simpa using h
    simp [this]

theorem tryTicketAt_sound {l : List Char} {t : String}
    (h : tryTicketAt l = some t) :
    ∃ u d, t = String.mk (u ++ '-' :: d) ∧ u ≠ [] ∧ d ≠ [] ∧
      (∀ c ∈ u, c.isUpper = true) ∧ (∀ c ∈ d, c.isDigit = true) ∧
      (u ++ '-' :: d) <+: l := by
  simp only [tryTicketAt] at h
  by_cases hur : l.takeWhile Char.isUpper = []
  · simp [hur] at h
  · rw [if_neg hur] at h
    by_cases htk : (l.dropWhile Char.isUpper).take 1 = ['-']
    · rw [if_pos htk] at h
      set r2 := (l.dropWhile Char.isUpper).drop 1 with hr2
      by_cases hdr : r2.takeWhile Char.isDigit = []
      · rw [if_pos hdr] at h; cases h
      · rw [if_neg hdr] at h
        refine ⟨l.takeWhile Char.isUpper, r2.takeWhile Char.isDigit,
          (Option.some_inj.mp h).symm, hur, hdr,
          fun a ha => List.mem_takeWhile_imp ha,
          fun a ha => List.mem_takeWhile_imp ha, ?_⟩
        refine ⟨r2.dropWhile Char.isDigit, ?_⟩
        have h1 := List.takeWhile_append_dropWhile Char.isUpper l
        have h2 := List.takeWhile_append_dropWhile Char.isDigit r2
        have hd : l.dropWhile Char.isUpper = '-' :: r2 := take_one_eq_cons htk
        rw [hd] at h1
        calc (l.takeWhile Char.isUpper ++ '-' :: r2.takeWhile Char.isDigit) ++
              r2.dropWhile Char.isDigit
            = l.takeWhile Char.isUpper ++
                '-' :: (r2.takeWhile Char.isDigit ++ r2.dropWhile Char.isDigit) := by
              simp
          _ = l.takeWhile Char.isUpper ++ '-' :: r2 := by rw [h2]
          _ = l := h1
    · rw [if_neg htk] at h; cases h

/-- Completeness: if a `[A-Z]+-\d+` shape occurs at the head of `l`, the
matcher succeeds there. -/
theorem tryTicketAt_yes {l u d : List Char} (hu : u ≠ []) (hdn : d ≠ [])
    (hup : ∀ c ∈ u, c.isUpper = true) (hdig : ∀ c ∈ d, c.isDigit = true)
    (hpre : (u ++ '-' :: d) <+: l) : tryTicketAt l ≠ none := by
  obtain ⟨rest, hrest⟩ := hpre
  have hdash : Char.isUpper '-' = false := by decide
  have hsplit := takeWhile_append_cons (p := Char.isUpper) hup hdash (d ++ rest)
  have hl : l = u ++ '-' :: (d ++ rest) := by simpa using hrest.symm
  rcases d with _ | ⟨d0, d'⟩
  · exact absurd rfl hdn
  · have hd0 : d0.isDigit = true := hdig d0 (by simp)
    rw [hl]
    simp only [tryTicketAt, hsplit.1, hsplit.2]
    rw [if_neg hu]
    simp only [List.take, List.drop, if_pos rfl, List.cons_append, List.takeWhile]
    rw [hd0]
    simp

/-- Completeness of the scan: `findTicketL` only returns `none` when no
`[A-Z]+-\d+` shape occurs anywhere in the text. -/
theorem findTicketL_none {l : List Char} (h : findTicketL l = none) :
    ∀ u d : List Char, u ≠ [] → d ≠ [] → (∀ c ∈ u, c.isUpper = true) →
      (∀ c ∈ d, c.isDigit = true) → ¬ (u ++ '-' :: d) <:+: l := by
  induction l with
  | nil =>
    intro u d hu _ _ _ hin
    have hnil := List.eq_nil_of_infix_nil hin
    simp at hnil
  | cons c cs ih =>
    intro u d hu hd hup hdig hin
    have hsplit : tryTicketAt (c :: cs) = none ∧ findTicketL cs = none := by
      rcases ht : tryTicketAt (c :: cs) with _ | t
      · refine ⟨rfl, ?_⟩
        simpa [findTicketL, ht] using h
      · rw [findTicketL, ht] at h; cases h
    rcases List.infix_cons_iff.mp hin with hpre | htl
    · exact tryTicketAt_yes hu hd hup hdig hpre hsplit.1
    · exact ih hsplit.2 u d hu hd hup hdig htl

/-- `findTicketL` soundness, lifted along the scan. -/
theorem findTicketL_some {l : List Char} {t : String}
    (h : findTicketL l = some t) :
    ∃ u d, t = String.mk (u ++ '-' :: d) ∧ u ≠ [] ∧ d ≠ [] ∧
      (∀ c ∈ u, c.isUpper = true) ∧ (∀ c ∈ d, c.isDigit = true) ∧
      (u ++ '-' :: d) <:+: l := by
  induction l with
  | nil => cases h
  | cons c cs ih =>
    rcases ht : tryTicketAt (c :: cs) with _ | t'
    · rw [findTicketL, ht] at h
      obtain ⟨u, d, h1, h2, h3, h4, h5, h6⟩ := ih h
      exact ⟨u, d, h1, h2, h3, h4, h5, List.infix_cons_iff.mpr (Or.inr h6)⟩
    · rw [findTicketL, ht] at h
      obtain ⟨u, d, h1, h2, h3, h4, h5, h6⟩ := tryTicketAt_sound ht
      cases h
      exact ⟨u, d, h1, h2, h3, h4, h5, h6.isInfix⟩

/-! ### C8 -/

/-- C8: after per-file dispositions, `autoApplyAndRecommit` re-stages every
applied file, synthesizes the commit message from a `[A-Z]+-\d+` token of
the branch name (falling back to the generic `SHOP-0000` exactly when no
such token occurs in the branch) plus the number of modified files, commits
with `--no-verify` so the validator hook is not re-invoked, and on a failed
commit reports (exit 1) while leaving every file modified and staged
(nothing is restored and no backup is removed). -/
theorem C8_recommit_orchestrator (appliedFiles : List (String × String))
    (branch : String) (commitOk : Bool) :
    (autoRecommitFinish appliedFiles branch commitOk).staged =
        appliedFiles.map Prod.fst
    ∧ (autoRecommitFinish appliedFiles branch commitOk).noVerify = true
    ∧ (autoRecommitFinish appliedFiles branch commitOk).message =
        commitMessageFor branch appliedFiles.length
    ∧ (findTicket branch = none →
        commitMessageFor branch appliedFiles.length =
          "SHOP-0000" ++ "-apply-copilot-improvements-" ++
            toString appliedFiles.length ++ "-files")
    ∧ (∀ t, findTicket branch = some t →
        commitMessageFor branch appliedFiles.length =
          t ++ "-apply-copilot-improvements-" ++
            toString appliedFiles.length ++ "-files")
    ∧ (∀ t, findTicket branch = some t →
        ∃ u d, t = String.mk (u ++ '-' :: d) ∧ u ≠ [] ∧ d ≠ [] ∧
          (∀ c ∈ u, c.isUpper = true) ∧ (∀ c ∈ d, c.isDigit = true) ∧
          (u ++ '-' :: d) <:+: branch.toList)
    ∧ (findTicket branch = none →
        ∀ u d : List Char, u ≠ [] → d ≠ [] → (∀ c ∈ u, c.isUpper = true) →
          (∀ c ∈ d, c.isDigit = true) → ¬ (u ++ '-' :: d) <:+: branch.toList)
    ∧ (commitOk = false →
        (autoRecommitFinish appliedFiles branch commitOk).exitCode = 1 ∧
        (autoRecommitFinish appliedFiles branch commitOk).filesRestored = false ∧
        (autoRecommitFinish appliedFiles branch commitOk).backupsRemoved = false) := by
  refine ⟨?_, ?_, ?_, ?_, ?_, fun t ht => findTicketL_some ht,
    fun hn => findTicketL_none hn, ?_⟩
  · cases commitOk <;> simp [autoRecommitFinish]
  · cases commitOk <;> simp [autoRecommitFinish]
  · cases commitOk <;> simp [autoRecommitFinish]
  · intro hn; simp [commitMessageFor, hn]
  · intro t ht; simp [commitMessageFor, ht]
  · intro hok; subst hok; simp [autoRecommitFinish]

/-- Witness for C8 at a ticket-bearing branch and a failing commit. -/
theorem C8_recommit_orchestrator_witness :
    (autoRecommitFinish [("f.js", "f.js.copilot-backup")]
        "feature/ABC-123-login" false).message =
      "ABC-123" ++ "-apply-copilot-improvements-" ++ toString (1 : Nat) ++ "-files"
    ∧ (autoRecommitFinish [("f.js", "f.js.copilot-backup")]
        "feature/ABC-123-login" false).exitCode = 1 := by
  have h := C8_recommit_orchestrator [("f.js", "f.js.copilot-backup")]
    "feature/ABC-123-login" false
  exact ⟨h.2.2.1.trans (h.2.2.2.2.1 "ABC-123" rfl), (h.2.2.2.2.2.2.2 rfl).1⟩

/-! ## Meaningful-change filter (`filterMeaningfulChanges`, `EXCLUDED_FILES`)

The wildcard entries of `EXCLUDED_FILES` are turned into regexes by
`pattern.replace('*', '.*')` (first `*` only) and tested unanchored; the
resulting patterns consist of literal characters, `.` wildcards and the
`.*` sequence, which the following miniature matcher implements. -/

/-- Atom of the compiled wildcard regex. -/
inductive RAtom where
  | anyChar
  | lit (c : Char)
deriving DecidableEq, Repr

/-- Token: a single atom or a starred atom. -/
inductive RTok where
  | once (a : RAtom)
  | star (a : RAtom)
deriving DecidableEq, Repr

/-- Tokenize a regex source made of literals, `.` and postfix `*`. -/
def rtokens : List Char → List RTok
  | [] => []
  | '.' :: '*' :: rest => .star .anyChar :: rtokens rest
  | '.' :: rest => .once .anyChar :: rtokens rest
  | c :: '*' :: rest => .star (.lit c) :: rtokens rest
  | c :: rest => .once (.lit c) :: rtokens rest

/-- Atom match. -/
def amatch : RAtom → Char → Bool
  | .anyChar, _ => true
  | .lit c, x => c = x

/-- Match the token list against a prefix of `s` (full backtracking),
fuel-indexed so that it computes by structural recursion; every recursive
call strictly decreases `ts.length + s.length`, so any fuel above that sum
is sufficient (`rmatchF_fuel_irrel`). -/
def rmatchF : Nat → List RTok → List Char → Bool
  | 0, _, _ => false
  | _ + 1, [], _ => true
  | _ + 1, .once _ :: _, [] => false
  | f + 1, .once a :: ts, c :: cs => amatch a c && rmatchF f ts cs
  | f + 1, .star _ :: ts, [] => rmatchF f ts []
  | f + 1, .star a :: ts, c :: cs =>
    rmatchF f ts (c :: cs) || (amatch a c && rmatchF f (.star a :: ts) cs)

theorem rmatchF_fuel_irrel :
    ∀ (n : Nat) (ts : List RTok) (s : List Char) (m : Nat),
      ts.length + s.length < n → ts.length + s.length < m →
      rmatchF n ts s = rmatchF m ts s := by
  intro n
  induction n with
  | zero => intro ts s m hn; omega
  | succ n ih =>
    intro ts s m hn hm
    match m, hm with
    | m + 1, hm =>
      match ts, s with
      | [], _ => rfl
      | .once _ :: _, [] => rfl
      | .once a :: ts, c :: cs =>
        simp only [rmatchF]
        rw [ih ts cs (m := m) (by simp at hn ⊢; omega) (by simp at hm ⊢; omega)]
      | .star a :: ts, [] =>
        simp only [rmatchF]
        rw [ih ts [] (m := m) (by simp at hn ⊢; omega) (by simp at hm ⊢; omega)]
      | .star a :: ts, c :: cs =>
        simp only [rmatchF]
        rw [ih ts (c :: cs) (m := m) (by simp at hn ⊢; omega) (by simp at hm ⊢; omega),
          ih (.star a :: ts) cs (m := m) (by simp at hn ⊢; omega) (by simp at hm ⊢; omega)]

/-- Match the token list against a prefix of `s`. -/
def rmatch (ts : List RTok) (s : List Char) : Bool :=
  rmatchF (ts.length + s.length + 1) ts s

/-- Unanchored `regex.test`: try every start position. -/
def rtest (ts : List RTok) : List Char → Bool
  | [] => rmatch ts []
  | c :: cs => rmatch ts (c :: cs) || rtest ts cs

/-- JS `new RegExp(pattern.replace('*', '.*')).test(line)` for the wildcard
entries of `EXCLUDED_FILES`. -/
def wildcardRegexTest (pat line : String) : Bool :=
  rtest (rtokens (replaceFirst pat "*" ".*").toList) line.toList

/-- The `EXCLUDED_FILES` list, verbatim. -/
def EXCLUDED_FILES : List String :=
  ["package-lock.json", "yarn.lock", "pnpm-lock.yaml", ".gitignore",
   ".env", ".env.local", ".env.example", "node_modules/", ".git/", "dist/",
   "build/", ".next/", "coverage/", "*.min.js", "*.map", ".DS_Store",
   "Thumbs.db"]

/-- Per-pattern exclusion test of `filterMeaningfulChanges`. -/
def excludedTest (line pat : String) : Bool :=
  if jsEndsWith pat "/" then
    jsIncludes line ("/" ++ pat) || jsIncludes line ("\\" ++ pat)
  else if jsIncludes pat "*" then
    wildcardRegexTest pat line
  else
    jsIncludes line pat

/-- The filter predicate on one diff line. -/
def meaningfulLine (line : String) : Bool :=
  if jsIncludes line "Binary files" && jsIncludes line "differ" then false
  else if EXCLUDED_FILES.any (fun pat => excludedTest line pat) then false
  else if jsStartsWith line "+" || jsStartsWith line "-" then
    let content := jsTrim (line.drop 1)
    if content = "" then false
    else if "//".toList.isPrefixOf (content.toList.dropWhile jsIsSpace) then false
    else if "/*".toList.isPrefixOf (content.toList.dropWhile jsIsSpace) then false
    else true
  else
    jsStartsWith line "@@" || jsStartsWith line "diff --git" ||
    jsStartsWith line "index" || jsStartsWith line "---" ||
    jsStartsWith line "+++"

/-- `filterMeaningfulChanges`. -/
def filterMeaningfulChanges (diff : String) : String :=
  jsJoinLines ((jsSplitLines diff).filter meaningfulLine)

/-! ## Skip directive and the early phase of `validateCommit`

`detectSkipDirective` compiles `AI_SKIP_DIRECTIVE_REGEX` (or the built-in
directive pattern) once and tests each staged file's content, skipping
unreadable files; the compiled regex is external configuration and is
abstracted as a boolean test on content.  `validateCommit` then proceeds
linearly: empty staged diff → exit 0; skip directive found → exit 0;
meaningful diff empty after filtering → exit 0; otherwise analysis,
prompting and (possibly) file modification begin. -/

/-- `detectSkipDirective`: first staged file whose (readable) content
matches the skip pattern. -/
def detectSkipDirective (skipTest : String → Bool)
    (contents : String → Option String) : List String → Option String
  | [] => none
  | f :: fs =>
    match contents f with
    | none => detectSkipDirective skipTest contents fs
    | some c =>
      if skipTest c then some f else detectSkipDirective skipTest contents fs

/-- Environment of one `validateCommit` invocation. -/
structure VCEnv where
  rawDiff : String
  stagedFiles : List String
  contents : String → Option String
  skipTest : String → Bool

/-- Result of the early (pre-analysis) phase of `validateCommit`: the three
early `process.exit(0)` sites, or entry into analysis with the filtered
diff.  Every prompt, analysis step and file write of `validateCommit` sits
behind `proceed`. -/
inductive EarlyResult where
  | exitNoStaged
  | exitSkipDirective (file : String)
  | exitOnlySystemFiles
  | proceed (meaningfulDiff : String)
deriving DecidableEq, Repr

/-- The early phase of `validateCommit`, translated linearly. -/
def validateCommitEarly (env : VCEnv) : EarlyResult :=
  if jsTrim env.rawDiff = "" then .exitNoStaged
  else
    match detectSkipDirective env.skipTest env.contents env.stagedFiles with
    | some f => .exitSkipDirective f
    | none =>
      let meaningfulDiff := filterMeaningfulChanges env.rawDiff
      if jsTrim meaningfulDiff = "" then .exitOnlySystemFiles
      else .proceed meaningfulDiff

/-- Exit code of an early result (`none` when analysis is entered). -/
def earlyExitCode : EarlyResult → Option Nat
  | .exitNoStaged => some 0
  | .exitSkipDirective _ => some 0
  | .exitOnlySystemFiles => some 0
  | .proceed _ => none

theorem detectSkipDirective_some {skipTest : String → Bool}
    {contents : String → Option String} :
    ∀ {files : List String}, (∃ f ∈ files, ∃ c, contents f = some c ∧
        skipTest c = true) →
      ∃ g, detectSkipDirective skipTest contents files = some g := by
  intro files
  induction files with
  | nil => rintro ⟨f, hf, _⟩; cases hf
  | cons f fs ih =>
    rintro ⟨g, hg, c, hc, hsk⟩
    rcases List.mem_cons.mp hg with hgf | hgfs
    · subst hgf
      refine ⟨g, ?_⟩
      simp [detectSkipDirective, hc, hsk]
    · rcases hcf : contents f with _ | cf
      · simpa [detectSkipDirective, hcf] using ih ⟨g, hgfs, c, hc, hsk⟩
      · by_cases hskf : skipTest cf = true
        · exact ⟨f, by simp [detectSkipDirective, hcf, hskf]⟩
        · have hskf' : skipTest cf = false := by
            cases hx : skipTest cf with
            | false => rfl
            | true => exact absurd hx hskf
          simpa [detectSkipDirective, hcf, hskf'] using ih ⟨g, hgfs, c, hc, hsk⟩

/-! ### C9 -/

/-- C9: whenever any staged file's content matches the skip directive
(built-in or custom pattern), `validateCommit` stops in its early phase with
exit code 0 — either at the empty-diff check or at the skip-directive check —
before any analysis, prompting, or file modification (all of which sit
behind the `proceed` result). -/
theorem C9_skip_directive_exits_zero (env : VCEnv)
    (h : ∃ f ∈ env.stagedFiles, ∃ c, env.contents f = some c ∧
        env.skipTest c = true) :
    earlyExitCode (validateCommitEarly env) = some 0 ∧
    ∀ d, validateCommitEarly env ≠ .proceed d := by
  by_cases hdiff : jsTrim env.rawDiff = ""
  · constructor
    · simp [validateCommitEarly, hdiff, earlyExitCode]
    · intro d
      simp [validateCommitEarly, hdiff]
  · obtain ⟨g, hg⟩ := detectSkipDirective_some h
    constructor
    · simp [validateCommitEarly, hdiff, hg, earlyExitCode]
    · intro d
      simp [validateCommitEarly, hdiff, hg]

/-- Witness for C9: a staged file containing `// ai-review: skip` with a
sample directive test. -/
theorem C9_skip_directive_exits_zero_witness :
    earlyExitCode (validateCommitEarly
      { rawDiff := "diff --git a/f.js b/f.js\n@@ -1,1 +1,1 @@\n+let x = 1;"
        stagedFiles := ["f.js"]
        contents := fun p =>
          if p = "f.js" then some "// ai-review: skip\nlet x = 1;" else none
        skipTest := fun c => jsIncludes c "// ai-review: skip" }) = some 0 :=
  (C9_skip_directive_exits_zero _
    ⟨"f.js", by decide, "// ai-review: skip\nlet x = 1;", by decide, by decide⟩).1

/-! ### C10 -/

/-- C10: if the staged diff is empty, or filtering leaves no meaningful
change line (only excluded system files changed), `validateCommit` stops in
its early phase with exit code 0, without prompting and without writing to
any file (prompts and writes all sit behind the `proceed` result, which is
not reached). -/
theorem C10_trivial_diff_exits_zero (env : VCEnv)
    (h : jsTrim env.rawDiff = "" ∨
        jsTrim (filterMeaningfulChanges env.rawDiff) = "") :
    earlyExitCode (validateCommitEarly env) = some 0 ∧
    ∀ d, validateCommitEarly env ≠ .proceed d := by
  by_cases hdiff : jsTrim env.rawDiff = ""
  · constructor
    · simp [validateCommitEarly, hdiff, earlyExitCode]
    · intro d
      simp [validateCommitEarly, hdiff]
  · have hflt : jsTrim (filterMeaningfulChanges env.rawDiff) = "" := by
      rcases h with h | h
      · exact absurd h hdiff
      · exact h
    rcases hsk : detectSkipDirective env.skipTest env.contents env.stagedFiles
      with _ | g
    · constructor
      · simp [validateCommitEarly, hdiff, hsk, hflt, earlyExitCode]
      · intro d
        simp [validateCommitEarly, hdiff, hsk, hflt]
    · constructor
      · simp [validateCommitEarly, hdiff, hsk, earlyExitCode]
      · intro d
        simp [validateCommitEarly, hdiff, hsk]

/-- Witness for C10: a non-empty staged diff whose change lines are
whitespace-only and comment-only additions plus a `.env` header line, all of
which the filter removes. -/
theorem C10_trivial_diff_exits_zero_witness :
    earlyExitCode (validateCommitEarly
      { rawDiff := "+++ b/.env\n+   \n+// comment only"
        stagedFiles := [".env"]
        contents := fun _ => none
        skipTest := fun _ => false }) = some 0 :=
  (C10_trivial_diff_exits_zero _ (Or.inr (by decide))).1

/-! ## Declared-identifier extraction (`extractDeclaredVariables`)

`fileContent.match(/(var|let|const)\s+([a-zA-Z_$][a-zA-Z0-9_$]*)/g)` plus
`fileContent.match(/function\s+[a-zA-Z_$][a-zA-Z0-9_$]*\s*\(([^)]+)\)/g)`
with the parameter lists split on `,`, default values stripped at `=`, and
each name checked against `/^[a-zA-Z_$][a-zA-Z0-9_$]*$/`.  The scanners
below implement the non-overlapping left-to-right `/g` semantics; they are
fuel-indexed (fuel strictly above the text length always suffices because
every step consumes at least one character — see the `_fuel_irrel`
lemmas). -/

/-- Regex `\w` (used by `\b`). -/
def isWordC (c : Char) : Bool := c.isAlpha || c.isDigit || c = '_'

/-- `[a-zA-Z_$]`. -/
def isIdentStartC (c : Char) : Bool := c.isAlpha || c = '_' || c = '$'

/-- `[a-zA-Z0-9_$]`. -/
def isIdentC (c : Char) : Bool := isIdentStartC c || c.isDigit

/-- Try `(var|let|const)` at the head; return the rest. -/
def parseDeclKeyword (l : List Char) : Option (List Char) :=
  if "var".toList.isPrefixOf l then some (l.drop 3)
  else if "let".toList.isPrefixOf l then some (l.drop 3)
  else if "const".toList.isPrefixOf l then some (l.drop 5)
  else none

/-- Try `(var|let|const)\s+([a-zA-Z_$][a-zA-Z0-9_$]*)` at the head of `l`;
return the capture and the rest of the text after the match. -/
def tryDeclAt (l : List Char) : Option (String × List Char) :=
  match parseDeclKeyword l with
  | none => none
  | some r1 =>
    if r1.takeWhile jsIsSpace = [] then none
    else
      match r1.dropWhile jsIsSpace with
      | [] => none
      | c :: cs =>
        if isIdentStartC c then
          let run := cs.takeWhile isIdentC
          some (String.mk (c :: run), cs.drop run.length)
        else none

theorem parseDeclKeyword_shrink {l r1 : List Char}
    (h : parseDeclKeyword l = some r1) : r1.length + 3 ≤ l.length := by
  simp only [parseDeclKeyword] at h
  by_cases h1 : "var".toList.isPrefixOf l
  · have hlen : 3 ≤ l.length := (by simpa using h1 : "var".toList <+: l).length_le
    rw [if_pos h1] at h
    cases h
    simp [List.length_drop]
    omega
  · rw [if_neg h1] at h
    by_cases h2 : "let".toList.isPrefixOf l
    · have hlen : 3 ≤ l.length := (by simpa using h2 : "let".toList <+: l).length_le
      rw [if_pos h2] at h
      cases h
      simp [List.length_drop]
      omega
    · rw [if_neg h2] at h
      by_cases h3 : "const".toList.isPrefixOf l
      · have hlen : 5 ≤ l.length :=
          (by simpa using h3 : "const".toList <+: l).length_le
        rw [if_pos h3] at h
        cases h
        simp [List.length_drop]
        omega
      · rw [if_neg h3] at h; cases h

theorem tryDeclAt_shrink {l : List Char} {v : String} {rest : List Char}
    (h : tryDeclAt l = some (v, rest)) : rest.length < l.length := by
  simp only [tryDeclAt] at h
  rcases hk : parseDeclKeyword l with _ | r1
  · rw [hk] at h; cases h
  · simp only [hk] at h
    have hk3 := parseDeclKeyword_shrink hk
    by_cases hws : r1.takeWhile jsIsSpace = []
    · rw [if_pos hws] at h; cases h
    · rw [if_neg hws] at h
      rcases hdw : r1.dropWhile jsIsSpace with _ | ⟨c, cs⟩
      · simp only [hdw] at h
        cases h
      · simp only [hdw] at h
        by_cases hst : isIdentStartC c
        · rw [if_pos hst] at h
          have hcs : rest = cs.drop (cs.takeWhile isIdentC).length := by
            cases h; rfl
          have hdwlen : (r1.dropWhile jsIsSpace).length ≤ r1.length :=
            (List.dropWhile_sublist _).length_le
          rw [hdw] at hdwlen
          have : rest.length ≤ cs.length := by
            rw [hcs]; simp [List.length_drop]
          simp at hdwlen
          omega
        · rw [if_neg hst] at h; cases h

/-- Fuel-indexed `/g` scan for declaration captures. -/
def scanDeclsF : Nat → List Char → List String
  | 0, _ => []
  | _ + 1, [] => []
  | f + 1, c :: cs =>
    match tryDeclAt (c :: cs) with
    | some (v, rest) => v :: scanDeclsF f rest
    | none => scanDeclsF f cs

theorem scanDeclsF_fuel_irrel :
    ∀ (n : Nat) (l : List Char) (m : Nat), l.length < n → l.length < m →
      scanDeclsF n l = scanDeclsF m l := by
  intro n
  induction n with
  | zero => intro l m hn; omega
  | succ n ih =>
    intro l m hn hm
    match m, hm with
    | m + 1, hm =>
      match l with
      | [] => rfl
      | c :: cs =>
        simp only [scanDeclsF]
        rcases ht : tryDeclAt (c :: cs) with _ | ⟨v, rest⟩
        · simp only [ht]
          exact ih cs m (by simp at hn; omega) (by simp at hm; omega)
        · simp only [ht]
          have hsh : rest.length < cs.length + 1 := by
            simpa using tryDeclAt_shrink ht
          rw [ih rest m (by simp at hn; omega) (by simp at hm; omega)]

/-- All `(var|let|const)` captures of a text. -/
def scanDecls (l : List Char) : List String := scanDeclsF (l.length + 1) l

/-- Keyword `function`, `\s+`, an identifier, `\s*`, `(`, `[^)]+`, `)`:
return the parameter-list capture and the rest after the match. -/
def tryFuncAt (l : List Char) : Option (String × List Char) :=
  if "function".toList.isPrefixOf l then
    let r1 := l.drop 8
    if r1.takeWhile jsIsSpace = [] then none
    else
      match r1.dropWhile jsIsSpace with
      | [] => none
      | c :: cs =>
        if isIdentStartC c then
          let r2 := (cs.drop (cs.takeWhile isIdentC).length).dropWhile jsIsSpace
          if r2.take 1 = ['('] then
            let inner := (r2.drop 1).takeWhile (fun ch => ch ≠ ')')
            if inner = [] then none
            else if ((r2.drop 1).drop inner.length).take 1 = [')'] then
              some (String.mk inner, ((r2.drop 1).drop inner.length).drop 1)
            else none
          else none
        else none
  else none

theorem tryFuncAt_shrink {l : List Char} {v : String} {rest : List Char}
    (h : tryFuncAt l = some (v, rest)) : rest.length < l.length := by
  simp only [tryFuncAt] at h
  by_cases hf : "function".toList.isPrefixOf l
  · have hlen : 8 ≤ l.length := (by simpa using hf : "function".toList <+: l).length_le
    rw [if_pos hf] at h
    by_cases hws : (l.drop 8).takeWhile jsIsSpace = []
    · rw [if_pos hws] at h; cases h
    · rw [if_neg hws] at h
      rcases hdw : (l.drop 8).dropWhile jsIsSpace with _ | ⟨c, cs⟩
      · simp only [hdw] at h
        cases h
      · simp only [hdw] at h
        by_cases hst : isIdentStartC c
        · rw [if_pos hst] at h
          set r2 := (cs.drop (cs.takeWhile isIdentC).length).dropWhile jsIsSpace with hr2
          by_cases hp1 : r2.take 1 = ['(']
          · rw [if_pos hp1] at h
            by_cases hinner : (r2.drop 1).takeWhile (fun ch => ch ≠ ')') = []
            · rw [if_pos hinner] at h; cases h
            · rw [if_neg hinner] at h
              set inner := (r2.drop 1).takeWhile (fun ch => ch ≠ ')') with hin
              by_cases hcl : ((r2.drop 1).drop inner.length).take 1 = [')']
              · rw [if_pos hcl] at h
                have hrest : rest = ((r2.drop 1).drop inner.length).drop 1 := by
                  cases h; rfl
                have h2 : r2.length ≤ cs.length := by
                  rw [hr2]
                  calc ((cs.drop (cs.takeWhile isIdentC).length).dropWhile jsIsSpace).length
                      ≤ (cs.drop (cs.takeWhile isIdentC).length).length :=
                        (List.dropWhile_sublist _).length_le
                    _ ≤ cs.length := by simp [List.length_drop]
                have h3 : (c :: cs).length ≤ (l.drop 8).length := by
                  rw [← hdw]
                  exact (List.dropWhile_sublist _).length_le
                have h4 : rest.length ≤ r2.length := by
                  rw [hrest]
                  calc (((r2.drop 1).drop inner.length).drop 1).length
                      ≤ ((r2.drop 1).drop inner.length).length := by
                        simp only [List.length_drop]; omega
                    _ ≤ (r2.drop 1).length := by
                        simp only [List.length_drop]; omega
                    _ ≤ r2.length := by
                        simp only [List.length_drop]; omega
                simp [List.length_drop] at h3
                omega
              · rw [if_neg hcl] at h; cases h
          · rw [if_neg hp1] at h; cases h
        · rw [if_neg hst] at h; cases h
  · rw [if_neg hf] at h; cases h

/-- Fuel-indexed `/g` scan for function-parameter captures. -/
def scanFuncCapturesF : Nat → List Char → List String
  | 0, _ => []
  | _ + 1, [] => []
  | f + 1, c :: cs =>
    match tryFuncAt (c :: cs) with
    | some (v, rest) => v :: scanFuncCapturesF f rest
    | none => scanFuncCapturesF f cs

theorem scanFuncCapturesF_fuel_irrel :
    ∀ (n : Nat) (l : List Char) (m : Nat), l.length < n → l.length < m →
      scanFuncCapturesF n l = scanFuncCapturesF m l := by
  intro n
  induction n with
  | zero => intro l m hn; omega
  | succ n ih =>
    intro l m hn hm
    match m, hm with
    | m + 1, hm =>
      match l with
      | [] => rfl
      | c :: cs =>
        simp only [scanFuncCapturesF]
        rcases ht : tryFuncAt (c :: cs) with _ | ⟨v, rest⟩
        · simp only [ht]
          exact ih cs m (by simp at hn; omega) (by simp at hm; omega)
        · simp only [ht]
          have hsh : rest.length < cs.length + 1 := by
            simpa using tryFuncAt_shrink ht
          rw [ih rest m (by simp at hn; omega) (by simp at hm; omega)]

/-- All parameter-list captures of a text. -/
def scanFuncCaptures (l : List Char) : List String :=
  scanFuncCapturesF (l.length + 1) l

/-- `/^[a-zA-Z_$][a-zA-Z0-9_$]*$/.test(s)`. -/
def isFullIdent (s : String) : Bool :=
  match s.toList with
  | [] => false
  | c :: cs => isIdentStartC c && cs.all isIdentC

/-- Split one captured parameter list into validated parameter names:
`split(',')`, `trim`, drop a default value at the first `=`, final `trim`,
keep full identifiers. -/
def paramNames (cap : String) : List String :=
  ((splitOnCharL ',' cap.toList).map (fun p => jsTrim (String.mk p))).filterMap
    (fun prm =>
      let pn := jsTrim (String.mk (prm.toList.takeWhile (fun c => c ≠ '=')))
      if pn ≠ "" && isFullIdent pn then some pn else none)

/-- JS `Set` built by repeated `add` (insertion order, no duplicates). -/
def dedupKeepFirst (xs : List String) : List String :=
  xs.foldl (fun acc x => if acc.contains x then acc else acc ++ [x]) []

/-- `extractDeclaredVariables(fileContent)`. -/
def extractDeclaredVariables (content : String) : List String :=
  dedupKeepFirst
    (scanDecls content.toList ++
      (scanFuncCaptures content.toList).flatMap paramNames)

/-- First `(?:const|let|var)\s+(ident)` capture of a single line (the
per-line top-up scan in `getCopilotReview`). -/
def firstDeclIn : List Char → Option String
  | [] => none
  | c :: cs =>
    match tryDeclAt (c :: cs) with
    | some (v, _) => some v
    | none => firstDeclIn cs

/-- The declared-identifier set passed to the detector: the whole-file
extraction topped up with each line's first declaration capture. -/
def declaredVarsForFile (content : String) : List String :=
  (jsSplitLines content).foldl
    (fun acc line =>
      match firstDeclIn line.toList with
      | some v => if acc.contains v then acc else acc ++ [v]
      | none => acc)
    (extractDeclaredVariables content)

/-! ## Fix Synthesizer (`generateSmartFix`)

Translated branch for branch from the source.  Regex operations on the line
are implemented concretely; the rule's own matchers stay abstract inside
`RulePattern` (`test` = `regex.test`, `exec1` = first capture of
`regex.exec`, with an empty capture treated as absent, mirroring the truthy
check `match && match[1]`). -/

/-- Rule severities. -/
inductive Severity where
  | critical
  | high
  | medium
  | low
deriving DecidableEq, Repr

/-- `severity === 'critical' || severity === 'high'`. -/
def severityIsAuto : Severity → Bool
  | .critical => true
  | .high => true
  | _ => false

/-- Severity string (for the legacy `type: severity + '-fix'` tag). -/
def severityName : Severity → String
  | .critical => "critical"
  | .high => "high"
  | .medium => "medium"
  | .low => "low"

/-- A detection rule: message, severity, and the two abstract regex
interfaces. -/
structure RulePattern where
  message : String
  severity : Severity
  test : String → Bool
  exec1 : String → Option String
  fixHint : String := ""

/-- Fuel-indexed global literal replacement
(JS `s.replace(/lit/g, rep)` for a non-empty literal pattern). -/
def replaceAllLitF (pat rep : List Char) : Nat → List Char → List Char
  | 0, s => s
  | _ + 1, [] => []
  | f + 1, c :: cs =>
    if pat ≠ [] && pat.isPrefixOf (c :: cs) then
      rep ++ replaceAllLitF pat rep f ((c :: cs).drop pat.length)
    else c :: replaceAllLitF pat rep f cs

theorem replaceAllLitF_fuel_irrel (pat rep : List Char) :
    ∀ (n : Nat) (s : List Char) (m : Nat), s.length < n → s.length < m →
      replaceAllLitF pat rep n s = replaceAllLitF pat rep m s := by
  intro n
  induction n with
  | zero => intro s m hn; omega
  | succ n ih =>
    intro s m hn hm
    match m, hm with
    | m + 1, hm =>
      match s with
      | [] => rfl
      | c :: cs =>
        simp only [replaceAllLitF]
        by_cases hp : pat ≠ [] && pat.isPrefixOf (c :: cs)
        · rw [if_pos hp, if_pos hp]
          have hplen : 1 ≤ pat.length := by
            rcases pat with _ | _
            · simp at hp
            · simp
          have hlen : ((c :: cs).drop pat.length).length < cs.length + 1 := by
            simp only [List.length_drop]
            simp
            omega
          rw [ih ((c :: cs).drop pat.length) m (by simp at hn; omega)
            (by simp at hm; omega)]
        · rw [if_neg hp, if_neg hp]
          rw [ih cs m (by simp at hn; omega) (by simp at hm; omega)]

/-- JS `s.replace(/lit/g, rep)`. -/
def replaceAllLit (s pat rep : String) : String :=
  String.mk (replaceAllLitF pat.toList rep.toList (s.toList.length + 1) s.toList)

/-- Fuel-indexed `s.replace(/\bvar\s+/g, 'const ')`: at each position with a
word boundary before a literal `var` followed by at least one whitespace,
replace the keyword and the whitespace run by `const `. -/
def replaceVarAuxF : Nat → Option Char → List Char → List Char
  | 0, _, s => s
  | _ + 1, _, [] => []
  | f + 1, prev, c :: cs =>
    let bd := match prev with
      | none => true
      | some p => !isWordC p
    if bd && "var".toList.isPrefixOf (c :: cs) &&
        !((c :: cs).drop 3).takeWhile jsIsSpace = [] then
      "const ".toList ++
        replaceVarAuxF f (some ' ') (((c :: cs).drop 3).dropWhile jsIsSpace)
    else c :: replaceVarAuxF f (some c) cs

theorem replaceVarAuxF_fuel_irrel :
    ∀ (n : Nat) (prev : Option Char) (s : List Char) (m : Nat),
      s.length < n → s.length < m →
      replaceVarAuxF n prev s = replaceVarAuxF m prev s := by
  intro n
  induction n with
  | zero => intro prev s m hn; omega
  | succ n ih =>
    intro prev s m hn hm
    match m, hm with
    | m + 1, hm =>
      match s with
      | [] => rfl
      | c :: cs =>
        simp only [replaceVarAuxF]
        by_cases hp : (match prev with
            | none => true
            | some p => !isWordC p) && "var".toList.isPrefixOf (c :: cs) &&
            !((c :: cs).drop 3).takeWhile jsIsSpace = []
        · rw [if_pos hp, if_pos hp]
          have hlen : (((c :: cs).drop 3).dropWhile jsIsSpace).length ≤
              ((c :: cs).drop 3).length :=
            (List.dropWhile_sublist _).length_le
          have hlen2 : ((c :: cs).drop 3).length ≤ cs.length := by
            simp only [List.length_drop]
            simp
          rw [ih (some ' ') (((c :: cs).drop 3).dropWhile jsIsSpace) m
            (by simp at hn; omega) (by simp at hm; omega)]
        · rw [if_neg hp, if_neg hp]
          rw [ih (some c) cs m (by simp at hn; omega) (by simp at hm; omega)]

/-- JS `s.replace(/\bvar\s+/g, 'const ')`. -/
def replaceVarKeyword (s : String) : String :=
  String.mk (replaceVarAuxF (s.toList.length + 1) none s.toList)

/-- Leftmost match of `\b([a-zA-Z_$][a-zA-Z0-9_$]{minExtra,})\s*\.`,
returning the capture.  `prev` is the character before the current
position (for the `\b` test).  The quantifier is effectively
maximal-munch: a shortened greedy run is still followed by an identifier
character, which can satisfy neither `\s*` nor `\.`. -/
def firstIdentDotMin (minExtra : Nat) : Option Char → List Char → Option String
  | _, [] => none
  | prev, c :: cs =>
    let bd := match prev with
      | none => isWordC c
      | some p => !(isWordC p == isWordC c)
    if bd && isIdentStartC c then
      let run := cs.takeWhile isIdentC
      if minExtra ≤ run.length &&
          ((cs.drop run.length).dropWhile jsIsSpace).take 1 = ['.'] then
        some (String.mk (c :: run))
      else firstIdentDotMin minExtra (some c) cs
    else firstIdentDotMin minExtra (some c) cs

/-- `line.match(/\b([a-zA-Z_$][a-zA-Z0-9_$]+)\s*\./)` capture (the
special undeclared-variable pre-check of the detector). -/
def firstIdentDot (s : String) : Option String :=
  firstIdentDotMin 1 none s.toList

/-- `line.match(/\b([a-zA-Z_$][a-zA-Z0-9_$]{10,})\s*\./)` capture (the
long-name critical rule). -/
def firstLongIdentDot (s : String) : Option String :=
  firstIdentDotMin 10 none s.toList

/-- Remove the leftmost occurrence of any alternative
(JS `s.replace(/a|b|.../, '')`, non-global: first match only, alternatives
tried left to right at each position). -/
def removeFirstAltL (alts : List (List Char)) : List Char → List Char
  | [] => []
  | c :: cs =>
    match alts.find? (fun a => a.isPrefixOf (c :: cs)) with
    | some a => (c :: cs).drop a.length
    | none => c :: removeFirstAltL alts cs

/-- `pattern.message.replace(/🚨|🟠|🟡|🟢|CRITICAL:|HIGH:|MEDIUM:|LOW:/, '').trim()`. -/
def stripSeverityTag (msg : String) : String :=
  jsTrim (String.mk (removeFirstAltL
    ["🚨".toList, "🟠".toList, "🟡".toList, "🟢".toList,
     "CRITICAL:".toList, "HIGH:".toList, "MEDIUM:".toList, "LOW:".toList]
    msg.toList))

/-- The hard-coded `specificVars` list of `generateSmartFix`. -/
def specificVars : List String :=
  ["undeclaredVariable", "myUndefinedArray", "testUndeclaredVar",
   "actuallyUndeclaredVar", "reallyUndefinedArray", "anotherUndeclaredVar",
   "testData"]

/-- Default initial value chosen from the usage on the line (the `else if`
chain of `generateSmartFix`; the final fall-through default is `[]`). -/
def smartDefault (code : String) : String :=
  if jsIncludes code ".includes(" || jsIncludes code ".push(" ||
      jsIncludes code ".pop(" then "[]"
  else if jsIncludes code ".length" then "[]"
  else if jsIncludes code "+ " || jsIncludes code "- " then "0"
  else if jsIncludes code "toString()" || jsIncludes code "charAt(" then "\x27\x27"
  else "[]"

/-- `trimmedCode.includes('const v =') || ... ('let v =') || ... ('var v =')`. -/
def sameLineDecl (trimmed varName : String) : Bool :=
  jsIncludes trimmed ("const " ++ varName ++ " =") ||
  jsIncludes trimmed ("let " ++ varName ++ " =") ||
  jsIncludes trimmed ("var " ++ varName ++ " =")

/-- The inserted declaration line prepended to the original line. -/
def declFixLine (varName dv trimmed : String) : String :=
  "const " ++ varName ++ " = " ++ dv ++
    "; // Auto-fix: Variable declaration\n" ++ trimmed

/-- The `specificVars` fallback loop of the undeclared-variable branch
(its own default-value chain always yields `[]`). -/
def specificVarsLoop (code trimmed : String) (declared : List String) :
    List String → Option String
  | [] => none
  | v :: vs =>
    if jsIncludes code v then
      some (if declared.contains v then trimmed
            else if sameLineDecl trimmed v then trimmed
            else declFixLine v "[]" trimmed)
    else specificVarsLoop code trimmed declared vs

/-- The undeclared-variable branch of `generateSmartFix`: `regex.exec` with
a truthy first capture, the declared-set check, the same-line-declaration
check, the usage-based default, otherwise the `specificVars` loop; `none`
when the branch falls through to the later checks. -/
def undeclaredBranch (code trimmed : String) (p : RulePattern)
    (declared : List String) : Option String :=
  match p.exec1 code with
  | some varName =>
    if varName ≠ "" then
      some (if declared.contains varName then trimmed
            else if sameLineDecl trimmed varName then trimmed
            else declFixLine varName (smartDefault code) trimmed)
    else specificVarsLoop code trimmed declared specificVars
  | none => specificVarsLoop code trimmed declared specificVars

/-- `generateSmartFix(code, pattern, filePath, declaredVariables)` (the
`filePath` parameter is unused in the source body and dropped here). -/
def generateSmartFix (code : String) (p : RulePattern)
    (declared : List String) : String :=
  let trimmed := jsTrim code
  if jsIncludes p.message "Console.log" then
    replaceAllLit trimmed "console.log(" "// console.log("
  else
    match (if jsIncludes p.message "undeclared variable" ||
              jsIncludes p.message "Potential undeclared variable" ||
              jsIncludes p.message "Test undeclared variable" then
             undeclaredBranch code trimmed p declared
           else none) with
    | some r => r
    | none =>
      if trimmed = "\x7d" && jsIncludes p.message "syntax" then ""
      else if jsIncludes p.message "var" then replaceVarKeyword trimmed
      else if jsIncludes p.message "semicolon" then
        if jsEndsWith trimmed "\x7b" || jsEndsWith trimmed "\x7d" then trimmed
        else if jsEndsWith trimmed ";" then trimmed
        else trimmed ++ ";"
      else trimmed ++ " // TODO: Fix: " ++ stripSeverityTag p.message

/-! ## Issue detection passes of `getCopilotReview`

Two passes feed the same `fileChanges` map (here: one fix list).
* Staged-aware pass: for each modified file that exists on disk, every line
  of the whole file is checked against every rule; a fix is pushed only for
  staged lines with critical/high severity.
* Legacy diff pass (`keep for compatibility`): every `+` line of the diff
  text is checked; a fix is pushed for critical/high matches with
  `line: index + 1` where `index` is the position of the line in the diff
  text itself. -/

/-- The `message.includes('undeclared variable') ||
message.includes('Test undeclared variable')` dispatch of the detector. -/
def specialHandlingPattern (p : RulePattern) : Bool :=
  jsIncludes p.message "undeclared variable" ||
  jsIncludes p.message "Test undeclared variable"

/-- One file's staged-aware detection (`fileLines.forEach` body). -/
def detectFileFixes (filePath : String) (patterns : List RulePattern)
    (fileLines : List String) (staged : List Int)
    (declared : List String) : List Fix :=
  fileLines.enum.flatMap (fun il =>
    let actualLineNumber : Int := (il.1 : Int) + 1
    let line := il.2
    let trimmed := jsTrim line
    let isStagedLine := staged.contains actualLineNumber
    if trimmed ≠ "" && !jsStartsWith trimmed "//" && !jsStartsWith trimmed "*" then
      patterns.flatMap (fun p =>
        if specialHandlingPattern p then
          match firstIdentDot line with
          | some varName =>
            if !declared.contains varName && p.test line then
              if isStagedLine && severityIsAuto p.severity then
                [{ filename := filePath, line := actualLineNumber,
                   original := trimmed,
                   improved := generateSmartFix line p declared }]
              else []
            else []
          | none => []
        else
          if p.test line then
            if isStagedLine && severityIsAuto p.severity then
              [{ filename := filePath, line := actualLineNumber,
                 original := trimmed,
                 improved := generateSmartFix line p declared }]
            else []
          else [])
    else [])

/-- State of the legacy diff scan. -/
structure LegacyState where
  currentFile : String
  fixes : List Fix
deriving Repr

/-- One step of the legacy diff scan (`lines.forEach((line, index) => ...)`). -/
def legacyStep (patterns : List RulePattern) (fileVars : String → List String)
    (s : LegacyState) (il : Nat × String) : LegacyState :=
  let line := il.2
  if jsStartsWith line "diff --git" then
    { s with currentFile := diffFileName line }
  else if jsStartsWith line "+" && !jsStartsWith line "+++" then
    let code := String.mk (line.toList.drop 1)
    let trimmed := jsTrim code
    if trimmed ≠ "" then
      let fileName := if s.currentFile = "" then "index.js" else s.currentFile
      { s with fixes := s.fixes ++ patterns.flatMap (fun p =>
          if p.test code && severityIsAuto p.severity then
            [{ filename := fileName, line := (il.1 : Int) + 1,
               original := trimmed,
               improved := generateSmartFix code p (fileVars fileName),
               ftype := some (severityName p.severity ++ "-fix") }]
          else []) }
    else s
  else s

/-- The legacy pass over the diff text. -/
def legacyFixes (patterns : List RulePattern) (fileVars : String → List String)
    (diffLines : List String) : List Fix :=
  (diffLines.enum.foldl (legacyStep patterns fileVars) ⟨"", []⟩).fixes

/-- The `modifiedFiles` set (first pass over `diff --git` lines). -/
def modifiedFilesOf (lines : List String) : List String :=
  lines.foldl (fun acc l =>
    if jsStartsWith l "diff --git" then
      match afterFirstL "b/".toList l.toList with
      | some r =>
        let f := jsTrim (String.mk r)
        if acc.contains f then acc else acc ++ [f]
      | none => acc
    else acc) []

/-- All fixes `getCopilotReview` pushes into `fileChanges` for a given file
system, rule list and diff text: the staged-aware pass over every modified
file followed by the legacy diff pass (whose per-file declared sets come
from re-reading each file). -/
def getCopilotReviewFixes (fsFiles : String → Option String)
    (patterns : List RulePattern) (diff : String) : List Fix :=
  let lines := jsSplitLines diff
  let staged := runStagedChanges lines
  let firstPass := (modifiedFilesOf lines).flatMap (fun fp =>
    match fsFiles fp with
    | some content =>
      detectFileFixes fp patterns (jsSplitLines content)
        ((staged.recorded.filter (fun pr => pr.1 = fp)).map Prod.snd)
        (declaredVarsForFile content)
    | none => [])
  let fileVars := fun f =>
    match fsFiles f with
    | some c => extractDeclaredVariables c
    | none => []
  firstPass ++ legacyFixes patterns fileVars lines

/-! ### Helper lemmas for the detection passes -/

theorem genSmartFix_declined (code : String) (p : RulePattern)
    (declared : List String) (v : String)
    (hcl : jsIncludes p.message "Console.log" = false)
    (hmsg : (jsIncludes p.message "undeclared variable" ||
        jsIncludes p.message "Potential undeclared variable" ||
        jsIncludes p.message "Test undeclared variable") = true)
    (hexec : p.exec1 code = some v) (hne : v ≠ "")
    (hdecl : declared.contains v = true) :
    generateSmartFix code p declared = jsTrim code := by
  have hmem : v ∈ declared := by simpa using hdecl
  simp [generateSmartFix, undeclaredBranch, hcl, hmsg, hexec, hne, hmem]

theorem genSmartFix_inserts (code : String) (p : RulePattern)
    (declared : List String) (v : String)
    (hcl : jsIncludes p.message "Console.log" = false)
    (hmsg : (jsIncludes p.message "undeclared variable" ||
        jsIncludes p.message "Potential undeclared variable" ||
        jsIncludes p.message "Test undeclared variable") = true)
    (hexec : p.exec1 code = some v) (hne : v ≠ "")
    (hnd : declared.contains v = false)
    (hsl : sameLineDecl (jsTrim code) v = false) :
    generateSmartFix code p declared =
      "const " ++ v ++ " = " ++ smartDefault code ++
        "; // Auto-fix: Variable declaration\n" ++ jsTrim code := by
  have hmem : v ∉ declared := by simpa using hnd
  simp [generateSmartFix, undeclaredBranch, declFixLine, hcl, hmsg, hexec,
    hne, hmem, hsl]

theorem flatMap_severity_filter {α : Type} (f : RulePattern → List α)
    (patterns : List RulePattern)
    (hf : ∀ p, severityIsAuto p.severity = false → f p = []) :
    patterns.flatMap f =
      (patterns.filter (fun p => severityIsAuto p.severity)).flatMap f := by
  induction patterns with
  | nil => rfl
  | cons p ps ih =>
    by_cases hp : severityIsAuto p.severity
    · simp [List.flatMap_cons, List.filter_cons, hp, ih]
    · have hfp := hf p (by simpa using hp)
      simp [List.flatMap_cons, List.filter_cons, hp, hfp, ih]

theorem detectFileFixes_severity_filter (fp : String)
    (patterns : List RulePattern) (fileLines : List String)
    (staged : List Int) (declared : List String) :
    detectFileFixes fp patterns fileLines staged declared =
      detectFileFixes fp (patterns.filter (fun p => severityIsAuto p.severity))
        fileLines staged declared := by
  simp only [detectFileFixes]
  congr 1
  funext il
  by_cases hc : (jsTrim il.2 ≠ "" && !jsStartsWith (jsTrim il.2) "//" &&
      !jsStartsWith (jsTrim il.2) "*") = true
  · rw [if_pos hc, if_pos hc]
    apply flatMap_severity_filter
    intro p hp
    by_cases hsp : specialHandlingPattern p
    · rcases hm : firstIdentDot il.2 with _ | v <;> simp [hsp, hm, hp]
    · simp [hsp, hp]
  · rw [if_neg hc, if_neg hc]

theorem legacy_foldl_severity_filter (patterns : List RulePattern)
    (fileVars : String → List String) :
    ∀ (l : List (Nat × String)) (s₁ s₂ : LegacyState),
      s₁.currentFile = s₂.currentFile → s₁.fixes = s₂.fixes →
      (l.foldl (legacyStep patterns fileVars) s₁).fixes =
        (l.foldl (legacyStep
            (patterns.filter (fun p => severityIsAuto p.severity))
            fileVars) s₂).fixes := by
  intro l
  induction l with
  | nil =>
    intro s₁ s₂ _ hfx
    simpa using hfx
  | cons il ls ih =>
    intro s₁ s₂ hcf hfx
    obtain ⟨cf₁, fx₁⟩ := s₁
    obtain ⟨cf₂, fx₂⟩ := s₂
    simp only at hcf hfx
    subst hcf
    subst hfx
    simp only [List.foldl_cons]
    have hfile : (legacyStep patterns fileVars ⟨cf₁, fx₁⟩ il).currentFile =
        (legacyStep (patterns.filter (fun p => severityIsAuto p.severity))
          fileVars ⟨cf₁, fx₁⟩ il).currentFile := by
      simp only [legacyStep]
      by_cases h1 : jsStartsWith il.2 "diff --git"
      · simp [h1]
      · by_cases h2 : (jsStartsWith il.2 "+" && !jsStartsWith il.2 "+++") = true
        · simp only [h1, h2]
          simp
          split <;> rfl
        · simp [h1, h2]
    have hfixes : (legacyStep patterns fileVars ⟨cf₁, fx₁⟩ il).fixes =
        (legacyStep (patterns.filter (fun p => severityIsAuto p.severity))
          fileVars ⟨cf₁, fx₁⟩ il).fixes := by
      simp only [legacyStep]
      by_cases h1 : jsStartsWith il.2 "diff --git"
      · simp [h1]
      · by_cases h2 : (jsStartsWith il.2 "+" && !jsStartsWith il.2 "+++") = true
        · simp only [h1, h2]
          simp
          split
          · rfl
          · show fx₁ ++ _ = fx₁ ++ _
            exact congrArg (fun z => fx₁ ++ z)
              (flatMap_severity_filter _ patterns (fun p hp => by simp [hp]))
        · simp [h1, h2]
    exact ih _ _ hfile hfixes

theorem detectFileFixes_mem_staged {fp : String} {patterns : List RulePattern}
    {fileLines : List String} {staged : List Int} {declared : List String}
    {fix : Fix} (h : fix ∈ detectFileFixes fp patterns fileLines staged declared) :
    fix.line ∈ staged := by
  simp only [detectFileFixes, List.mem_flatMap] at h
  obtain ⟨il, _, hbody⟩ := h
  split at hbody
  case isFalse => simp at hbody
  case isTrue =>
    simp only [List.mem_flatMap] at hbody
    obtain ⟨p, _, hinner⟩ := hbody
    by_cases hsp : specialHandlingPattern p = true
    · rw [if_pos hsp] at hinner
      rcases hm : firstIdentDot il.2 with _ | v
      · simp [hm] at hinner
      · simp only [hm] at hinner
        simp at hinner
        obtain ⟨_, ⟨hst, _⟩, hfx⟩ := hinner
        subst hfx
        simpa using hst
    · rw [if_neg hsp] at hinner
      simp at hinner
      obtain ⟨_, ⟨hst, _⟩, hfx⟩ := hinner
      subst hfx
      simpa using hst

/-! ### Concrete rules and demo inputs -/

/-- The catalogue's long-name critical rule
`{ regex: /\b([a-zA-Z_$][a-zA-Z0-9_$]{10,})\s*\./i, severity: 'critical' }`
with its matchers implemented concretely. -/
def criticalLongNamePattern : RulePattern :=
  { message := "🚨 CRITICAL: Long variable name detected - likely undeclared"
  , severity := .critical
  , test := fun s => (firstLongIdentDot s).isSome
  , exec1 := firstLongIdentDot
  , fixHint := "Declare variable: const $1 = ...; or check for typos" }

/-- A demo rule whose message routes `generateSmartFix` into the
undeclared-variable branch and whose capture is the first `ident.`
occurrence. -/
def demoUndeclPattern : RulePattern :=
  { message := "🟡 MEDIUM: Potential undeclared variable \x27$1\x27 in code - verify declaration"
  , severity := .medium
  , test := fun s => (firstIdentDot s).isSome
  , exec1 := firstIdentDot
  , fixHint := "" }

/-- Demo diff for the C1 counterexample: one staged addition at new-file
line 5, sitting at index 2 (0-based) of the diff text. -/
def demoDiffC1 : String :=
  "diff --git a/f.js b/f.js\n@@ -1,0 +5,1 @@\n+longUndeclaredName.push(1)"

/-- Demo diff for the C6 counterexample: the staged addition is line 1 of
the file. -/
def demoDiffC6 : String :=
  "diff --git a/app.js b/app.js\n@@ -1,0 +1,1 @@\n+longUndeclaredName.push(1)"

/-- Demo file system for the C6 counterexample. -/
def demoFsC6 : String → Option String :=
  fun p => if p = "app.js" then some "longUndeclaredName.push(1)" else none

/-! ### C1 -/

/-- C1 counterexample: the legacy diff pass of `getCopilotReview` creates a
fix whose `line` field is the index of the `+` line in the diff text
(`index + 1` = 3), which is not a member of the staged-change map entry for
its file (`{5}`). -/
theorem C1_counterexample_legacy_line :
    ∃ fix ∈ getCopilotReviewFixes (fun _ => none) [criticalLongNamePattern]
        demoDiffC1,
      fix.line ∉ stagedLinesOf demoDiffC1 fix.filename := by
  decide

/-- C1 (amended): fixes produced by the staged-aware detection pass always
carry a line number belonging to the staged set for their file, and both
that pass and the legacy diff pass create fixes only from rules of critical
or high severity (removing the other rules changes neither output).  The
legacy pass, however, numbers its fixes by diff-text position, so its line
fields need not lie in the staged-change map (see the counterexample). -/
theorem C1_staged_and_severity_guarantees :
    (∀ (fp : String) (patterns : List RulePattern) (fileLines : List String)
        (staged : List Int) (declared : List String) (fix : Fix),
        fix ∈ detectFileFixes fp patterns fileLines staged declared →
        fix.line ∈ staged)
    ∧ (∀ (fp : String) (patterns : List RulePattern) (fileLines : List String)
        (staged : List Int) (declared : List String),
        detectFileFixes fp patterns fileLines staged declared =
          detectFileFixes fp
            (patterns.filter (fun p => severityIsAuto p.severity))
            fileLines staged declared)
    ∧ (∀ (patterns : List RulePattern) (fileVars : String → List String)
        (diffLines : List String),
        legacyFixes patterns fileVars diffLines =
          legacyFixes (patterns.filter (fun p => severityIsAuto p.severity))
            fileVars diffLines) := by
  refine ⟨fun fp patterns fileLines staged declared fix h =>
      detectFileFixes_mem_staged h,
    fun fp patterns fileLines staged declared =>
      detectFileFixes_severity_filter fp patterns fileLines staged declared,
    fun patterns fileVars diffLines => ?_⟩
  exact legacy_foldl_severity_filter patterns fileVars diffLines.enum
    ⟨"", []⟩ ⟨"", []⟩ rfl rfl

/-- Witness for C1's amended guarantees at a concrete staged fix. -/
theorem C1_staged_and_severity_guarantees_witness :
    ({ filename := "app.js", line := 1,
       original := "longUndeclaredName.push(1)",
       improved := generateSmartFix "longUndeclaredName.push(1)"
         criticalLongNamePattern [] } : Fix).line ∈ ([1] : List Int) :=
  C1_staged_and_severity_guarantees.1 "app.js" [criticalLongNamePattern]
    ["longUndeclaredName.push(1)"] [1] [] _ (by decide)

/-! ### C6 -/

/-- C6 counterexample: an actionable issue whose `generateSmartFix` output
equals the original line (the long-name rule's message contains `var`, so
the synthesizer runs the `\bvar\s+` rewrite, which leaves the line
unchanged) still becomes an auto-fix candidate: `getCopilotReview` records
the identity fix in `fileChanges`, hence in the `AUTO_APPLICABLE_FIXES`
output. -/
theorem C6_counterexample_identity_fix :
    ∃ fix ∈ getCopilotReviewFixes demoFsC6 [criticalLongNamePattern]
        demoDiffC6,
      fix.improved = fix.original := by
  decide

/-- C6 (amended): the synthesizer does return the original line unchanged
when its declaration strategy declines (identifier already declared), but
`getCopilotReview` performs no identical-rewrite filtering: the staged-aware
detector emits the fix record for every staged critical/high match
regardless of whether the computed rewrite differs from the original, so
identity fixes do appear among the auto-fix candidates (applying them is a
textual no-op). -/
theorem C6_identity_fixes_not_filtered :
    (∀ (code : String) (p : RulePattern) (declared : List String) (v : String),
        jsIncludes p.message "Console.log" = false →
        (jsIncludes p.message "undeclared variable" ||
          jsIncludes p.message "Potential undeclared variable" ||
          jsIncludes p.message "Test undeclared variable") = true →
        p.exec1 code = some v → v ≠ "" → declared.contains v = true →
        generateSmartFix code p declared = jsTrim code)
    ∧ (∀ (fp : String) (p : RulePattern) (line : String) (staged : List Int)
        (declared : List String),
        (jsTrim line ≠ "" && !jsStartsWith (jsTrim line) "//" &&
          !jsStartsWith (jsTrim line) "*") = true →
        specialHandlingPattern p = false →
        p.test line = true →
        staged.contains 1 = true →
        severityIsAuto p.severity = true →
        detectFileFixes fp [p] [line] staged declared =
          [{ filename := fp, line := 1, original := jsTrim line,
             improved := generateSmartFix line p declared }]) := by
  refine ⟨genSmartFix_declined, ?_⟩
  intro fp p line staged declared hline hsp htest hst hsev
  simp only [Bool.and_eq_true, decide_eq_true_eq, Bool.not_eq_true'] at hline
  have hst' : (1 : Int) ∈ staged := by simpa using hst
  simp only [detectFileFixes, List.enum]
  simp [hline.1.1, hline.1.2, hline.2, hsp, htest, hst', hsev]

/-- Witness for C6's amended statement: the identity fix of the
counterexample input is emitted by the detector. -/
theorem C6_identity_fixes_not_filtered_witness :
    detectFileFixes "app.js" [criticalLongNamePattern]
        ["longUndeclaredName.push(1)"] [1] [] =
      [{ filename := "app.js", line := 1,
         original := jsTrim "longUndeclaredName.push(1)",
         improved := generateSmartFix "longUndeclaredName.push(1)"
           criticalLongNamePattern [] }] :=
  C6_identity_fixes_not_filtered.2 "app.js" criticalLongNamePattern
    "longUndeclaredName.push(1)" [1] [] (by decide) (by decide) (by decide)
    (by decide) (by decide)

/-! ### C7 -/

/-- C7: the declaration-insertion strategy of `generateSmartFix` consults
the declared-identifier set (built by `extractDeclaredVariables` from
declarations and function parameter lists) and produces no new declaration
when the flagged identifier is already declared; otherwise (and with no
same-line declaration present) it prepends exactly one declaration line
before the flagged line, whose initial value follows the usage on the line:
empty collection for collection-like usage, zero for arithmetic usage, and
empty string for string usage. -/
theorem C7_declaration_insertion :
    (∀ (content code : String) (p : RulePattern) (v : String),
        jsIncludes p.message "Console.log" = false →
        (jsIncludes p.message "undeclared variable" ||
          jsIncludes p.message "Potential undeclared variable" ||
          jsIncludes p.message "Test undeclared variable") = true →
        p.exec1 code = some v → v ≠ "" →
        v ∈ extractDeclaredVariables content →
        generateSmartFix code p (extractDeclaredVariables content) =
          jsTrim code)
    ∧ (∀ (code : String) (p : RulePattern) (declared : List String)
        (v : String),
        jsIncludes p.message "Console.log" = false →
        (jsIncludes p.message "undeclared variable" ||
          jsIncludes p.message "Potential undeclared variable" ||
          jsIncludes p.message "Test undeclared variable") = true →
        p.exec1 code = some v → v ≠ "" →
        v ∉ declared → sameLineDecl (jsTrim code) v = false →
        generateSmartFix code p declared =
          "const " ++ v ++ " = " ++ smartDefault code ++
            "; // Auto-fix: Variable declaration\n" ++ jsTrim code)
    ∧ (∀ code : String,
        (jsIncludes code ".includes(" || jsIncludes code ".push(" ||
          jsIncludes code ".pop(") = true → smartDefault code = "[]")
    ∧ (∀ code : String,
        (jsIncludes code ".includes(" || jsIncludes code ".push(" ||
          jsIncludes code ".pop(") = false →
        jsIncludes code ".length" = true → smartDefault code = "[]")
    ∧ (∀ code : String,
        (jsIncludes code ".includes(" || jsIncludes code ".push(" ||
          jsIncludes code ".pop(") = false →
        jsIncludes code ".length" = false →
        (jsIncludes code "+ " || jsIncludes code "- ") = true →
        smartDefault code = "0")
    ∧ (∀ code : String,
        (jsIncludes code ".includes(" || jsIncludes code ".push(" ||
          jsIncludes code ".pop(") = false →
        jsIncludes code ".length" = false →
        (jsIncludes code "+ " || jsIncludes code "- ") = false →
        (jsIncludes code "toString()" || jsIncludes code "charAt(") = true →
        smartDefault code = "\x27\x27") := by
  refine ⟨?_, ?_, ?_, ?_, ?_, ?_⟩
  · intro content code p v hcl hmsg hexec hne hmem
    exact genSmartFix_declined code p _ v hcl hmsg hexec hne
      (by simpa using hmem)
  · intro code p declared v hcl hmsg hexec hne hmem hsl
    exact genSmartFix_inserts code p declared v hcl hmsg hexec hne
      (by simpa using hmem) hsl
  · intro code h; simp [smartDefault, h]
  · intro code h1 h2; simp [smartDefault, h1, h2]
  · intro code h1 h2 h3; simp [smartDefault, h1, h2, h3]
  · intro code h1 h2 h3 h4; simp [smartDefault, h1, h2, h3, h4]

set_option maxRecDepth 4000 in
/-- Witness for C7: a declared identifier is left alone; an undeclared one
gets exactly one collection-valued declaration line. -/
theorem C7_declaration_insertion_witness :
    generateSmartFix "myList.push(4)" demoUndeclPattern
        (extractDeclaredVariables "const myList = [];") =
      jsTrim "myList.push(4)"
    ∧ generateSmartFix "newArr.push(4)" demoUndeclPattern [] =
        "const " ++ "newArr" ++ " = " ++ smartDefault "newArr.push(4)" ++
          "; // Auto-fix: Variable declaration\n" ++ jsTrim "newArr.push(4)"
    ∧ smartDefault "newArr.push(4)" = "[]" :=
  ⟨C7_declaration_insertion.1 "const myList = [];" "myList.push(4)"
      demoUndeclPattern "myList" (by decide) (by decide) (by decide)
      (by decide) (by decide),
   C7_declaration_insertion.2.1 "newArr.push(4)" demoUndeclPattern []
      "newArr" (by decide) (by decide) (by decide) (by decide) (by decide)
      (by decide),
   C7_declaration_insertion.2.2.1 "newArr.push(4)" (by decide)⟩

end CCV
